import Mathlib

/-!
# Verification of the SimpleRSA reference implementation

Shallow embedding of `src/rsa.py` (class `SimpleRSA`) and, for the
serialization claims, a model of the DER/PEM codec from the design
document (the corresponding functions in `src/pem.py` and the loaders in
`src/rsa.py` are unimplemented stubs).

Python's arbitrary-precision non-negative integers are embedded as `Nat`
(the extended Euclidean algorithm, whose Bézout coefficients go negative,
uses `Int`).  Loops are embedded as structurally recursive functions on an
explicit iteration budget that provably dominates the number of iterations
the source loop performs, so that every definition evaluates by kernel
reduction.  A Python function that can raise is embedded with an `Option`
(or `Except`) codomain, `none` marking the raise.
-/

/-! ## Modular arithmetic kernel (`SimpleRSA._modular_pow` and friends) -/

/-- One pass of the `while exponent > 0` loop of `SimpleRSA._modular_pow`
(src/rsa.py lines 22-26), iterated structurally on a budget `fuel`.
The loop halves `exponent` each pass, so it runs at most `exponent` passes
(for `exponent = 0` it does not run at all); hence `fuel = exponent`
reproduces the loop exactly. -/
def mp_loop (modulus : Nat) : Nat → Nat → Nat → Nat → Nat
  | 0, _, result, _ => result
  | fuel + 1, base, result, exponent =>
    if exponent = 0 then result
    else
      mp_loop modulus fuel ((base * base) % modulus)
        (if exponent % 2 = 1 then (result * base) % modulus else result)
        (exponent / 2)

/-- `SimpleRSA._modular_pow(base, exponent, modulus)` (src/rsa.py lines 12-27):
returns 0 when `modulus == 1`, otherwise runs the square-and-multiply loop
on `base % modulus` with accumulator 1. -/
def modular_pow (base exponent modulus : Nat) : Nat :=
  if modulus = 1 then 0
  else mp_loop modulus exponent (base % modulus) 1 exponent

/-- The naive repeated-multiplication reference for exponentiation that the
spec compares `modPow` against: multiply `base` into an accumulator
`exponent` times. -/
def naive_pow (base : Nat) : Nat → Nat
  | 0 => 1
  | n + 1 => naive_pow base n * base

theorem naive_pow_eq_pow (base n : Nat) : naive_pow base n = base ^ n := by
  induction n with
  | zero => rfl
  | succ n ih => simp [naive_pow, ih, Nat.pow_succ]

theorem mp_loop_spec (modulus : Nat) (hm : 2 ≤ modulus) :
    ∀ fuel exponent base result, exponent ≤ fuel → result < modulus →
      mp_loop modulus fuel base result exponent = (result * base ^ exponent) % modulus := by
  intro fuel
  induction fuel with
  | zero =>
    intro exponent base result he hr
    have : exponent = 0 := Nat.le_zero.mp he
    subst this
    simp [mp_loop, Nat.mod_eq_of_lt hr]
  | succ fuel ih =>
    intro exponent base result he hr
    by_cases h0 : exponent = 0
    · subst h0
      simp [mp_loop, Nat.mod_eq_of_lt hr]
    · have hpos : 0 < exponent := Nat.pos_of_ne_zero h0
      have hfuel : exponent / 2 ≤ fuel := by
        have := Nat.div_lt_self hpos (by omega : 1 < 2)
        omega
      have hmm : ∀ x : Nat, x % modulus % modulus = x % modulus := fun x =>
        Nat.mod_mod_of_dvd x dvd_rfl
      rw [mp_loop]
      simp only [h0, if_false]
      by_cases hodd : exponent % 2 = 1
      · rw [if_pos hodd]
        rw [ih (exponent / 2) ((base * base) % modulus) ((result * base) % modulus) hfuel
          (Nat.mod_lt _ (by omega))]
        have hexp : exponent = 2 * (exponent / 2) + 1 := by omega
        calc (result * base % modulus) * ((base * base % modulus) ^ (exponent / 2)) % modulus
            = (result * base % modulus) * ((base * base % modulus) ^ (exponent / 2) % modulus)
                % modulus := by rw [Nat.mul_mod, hmm]
          _ = (result * base % modulus) * ((base * base) ^ (exponent / 2) % modulus)
                % modulus := by rw [← Nat.pow_mod]
          _ = (result * base) * ((base * base) ^ (exponent / 2)) % modulus := by
                rw [← Nat.mul_mod]
          _ = result * base ^ exponent % modulus := by
                conv_rhs => rw [hexp]
                rw [pow_succ, pow_mul]
                congr 1
                ring
      · rw [if_neg hodd]
        rw [ih (exponent / 2) ((base * base) % modulus) result hfuel hr]
        have hexp : exponent = 2 * (exponent / 2) := by omega
        calc result * ((base * base % modulus) ^ (exponent / 2)) % modulus
            = result * ((base * base % modulus) ^ (exponent / 2) % modulus) % modulus := by
                rw [Nat.mul_mod, Nat.mod_eq_of_lt hr]
          _ = result * ((base * base) ^ (exponent / 2) % modulus) % modulus := by
                rw [← Nat.pow_mod]
          _ = result * ((base * base) ^ (exponent / 2)) % modulus := by
                rw [Nat.mul_mod, hmm, ← Nat.mul_mod]
          _ = result * base ^ exponent % modulus := by
                conv_rhs => rw [hexp]
                rw [pow_mul]
                congr 1
                ring

theorem modular_pow_correct (base exponent modulus : Nat) (hm : 1 ≤ modulus) :
    modular_pow base exponent modulus = base ^ exponent % modulus := by
  by_cases h1 : modulus = 1
  · subst h1
    simp [modular_pow, Nat.mod_one]
  · have hm2 : 2 ≤ modulus := by omega
    rw [modular_pow, if_neg h1]
    rw [mp_loop_spec modulus hm2 exponent exponent (base % modulus) 1 le_rfl (by omega)]
    rw [one_mul, ← Nat.pow_mod]

/-- `SimpleRSA._gcd_euclidean` loop body (src/rsa.py lines 89-92), iterated
on a budget: each pass replaces `b` by `a % b < b`, so `b` bounds the number
of remaining passes and `fuel = b + 1` reproduces the `while b > 0` loop. -/
def gcd_loop : Nat → Nat → Nat → Nat
  | 0, a, _ => a
  | fuel + 1, a, b => if b = 0 then a else gcd_loop fuel b (a % b)

/-- `SimpleRSA._gcd_euclidean(a, b)` (src/rsa.py lines 84-93). -/
def gcd_euclidean (a b : Nat) : Nat := gcd_loop (b + 1) a b

theorem gcd_loop_eq_gcd : ∀ fuel a b, b < fuel → gcd_loop fuel a b = Nat.gcd a b := by
  intro fuel
  induction fuel with
  | zero => intro a b h; omega
  | succ fuel ih =>
    intro a b h
    by_cases hb : b = 0
    · subst hb; simp [gcd_loop]
    · rw [gcd_loop, if_neg hb, ih b (a % b) (by have := Nat.mod_lt a (Nat.pos_of_ne_zero hb); omega)]
      rw [Nat.gcd_comm b (a % b), ← Nat.gcd_rec b a, Nat.gcd_comm b a]

theorem gcd_euclidean_eq_gcd (a b : Nat) : gcd_euclidean a b = Nat.gcd a b :=
  gcd_loop_eq_gcd (b + 1) a b (Nat.lt_succ_self b)

/-- `SimpleRSA._lcm(a, b) = a*b // gcd(a, b)` (src/rsa.py lines 95-100). -/
def lcm_py (a b : Nat) : Nat := a * b / gcd_euclidean a b

theorem lcm_py_eq_lcm (a b : Nat) : lcm_py a b = Nat.lcm a b := by
  rw [lcm_py, gcd_euclidean_eq_gcd]; rfl

/-! ## Extended Euclidean algorithm (`SimpleRSA._mod_mult_inverse`) -/

/-- One pass of the `while r != 0` loop of `SimpleRSA._mod_mult_inverse`
(src/rsa.py lines 109-114), iterated structurally on a budget `fuel`.
Python's `//` on ints is floor division, embedded as `Int.fdiv`; the
simultaneous assignments are passed positionally.  Each pass replaces `r`
by `old_r - (old_r // r) * r`, whose absolute value is smaller than `|r|`
when `r > 0`, so `fuel = |r| + 1` passes reproduce the loop. -/
def egcd_loop : Nat → Int → Int → Int → Int → Int × Int
  | 0, old_r, _, old_s, _ => (old_r, old_s)
  | fuel + 1, old_r, r, old_s, s =>
    if r = 0 then (old_r, old_s)
    else egcd_loop fuel r (old_r - old_r.fdiv r * r) s (old_s - old_r.fdiv r * s)

/-- `SimpleRSA._mod_mult_inverse(a, n)` (src/rsa.py lines 102-117):
runs the extended Euclidean loop from `(old_r, r, old_s, s) = (a, n, 1, 0)`
and returns `(old_s % n + n) % n`.  Python's `%` with a positive modulus
agrees with `Int.emod` (Lean's `%` on `Int`). -/
def mod_mult_inverse (a n : Int) : Int :=
  ((egcd_loop (n.natAbs + 1) a n 1 0).2 % n + n) % n

theorem gcd_sub_mul_right (old_r r q : Int) :
    Int.gcd r (old_r - q * r) = Int.gcd old_r r := by
  apply Nat.dvd_antisymm
  · apply Int.natCast_dvd_natCast.mp
    apply Int.dvd_gcd
    · have h1 : (↑(Int.gcd r (old_r - q * r)) : Int) ∣ r := Int.gcd_dvd_left
      have h2 : (↑(Int.gcd r (old_r - q * r)) : Int) ∣ old_r - q * r := Int.gcd_dvd_right
      have := dvd_add h2 (Dvd.dvd.mul_left h1 q)
      simpa using this
    · exact Int.gcd_dvd_left
  · apply Int.natCast_dvd_natCast.mp
    apply Int.dvd_gcd
    · exact Int.gcd_dvd_right
    · have h1 : (↑(Int.gcd old_r r) : Int) ∣ old_r := Int.gcd_dvd_left
      have h2 : (↑(Int.gcd old_r r) : Int) ∣ r := Int.gcd_dvd_right
      have := dvd_sub h1 (Dvd.dvd.mul_left h2 q)
      simpa using this

theorem egcd_loop_spec (a n : Int) (hn : 0 < n) :
    ∀ fuel (old_r r old_s s : Int), r.natAbs < fuel → 0 ≤ r →
      (0 ≤ old_r ∨ 0 < r) →
      Int.gcd old_r r = Int.gcd a n →
      old_s * a ≡ old_r [ZMOD n] → s * a ≡ r [ZMOD n] →
      (egcd_loop fuel old_r r old_s s).2 * a ≡ (egcd_loop fuel old_r r old_s s).1 [ZMOD n] ∧
      (egcd_loop fuel old_r r old_s s).1 = (Int.gcd a n : Int) := by
  intro fuel
  induction fuel with
  | zero => intro old_r r old_s s hf; exact (Nat.not_lt_zero _ hf).elim
  | succ fuel ih =>
    intro old_r r old_s s hf hr hsign hgcd hbez_old hbez
    by_cases h0 : r = 0
    · subst h0
      rw [egcd_loop]
      simp only [if_pos rfl]
      have hor : 0 ≤ old_r := by
        rcases hsign with h | h
        · exact h
        · omega
      refine ⟨hbez_old, ?_⟩
      rw [← hgcd]
      simp [Int.gcd, Int.natAbs_of_nonneg hor]
    · have hrpos : 0 < r := lt_of_le_of_ne hr (Ne.symm h0)
      rw [egcd_loop]
      simp only [if_neg h0]
      have hfd : old_r.fdiv r = old_r / r := Int.fdiv_eq_ediv old_r (le_of_lt hrpos)
      have hnew : old_r - old_r.fdiv r * r = old_r % r := by
        rw [hfd, Int.emod_def]; ring
      have hmod_nonneg : 0 ≤ old_r % r := Int.emod_nonneg old_r h0
      have hmod_lt : old_r % r < r := Int.emod_lt_of_pos old_r hrpos
      have hfuel' : (old_r - old_r.fdiv r * r).natAbs < fuel := by
        rw [hnew]
        have h1 : (old_r % r).natAbs < r.natAbs := by
          omega
        omega
      refine ih r (old_r - old_r.fdiv r * r) s (old_s - old_r.fdiv r * s) hfuel'
        (by rw [hnew]; exact hmod_nonneg) (Or.inl hr) ?_ hbez ?_
      · rw [gcd_sub_mul_right old_r r (old_r.fdiv r)]
        exact hgcd
      · have h1 : (old_s - old_r.fdiv r * s) * a = old_s * a - old_r.fdiv r * (s * a) := by
          ring
        rw [h1]
        have := Int.ModEq.sub hbez_old (Int.ModEq.mul_left (old_r.fdiv r) hbez)
        exact this

/-- `mod_mult_inverse a n` for `n > 0` and `gcd(a, n) = 1` is the modular
inverse of `a`: it lies in `[0, n)` and `a * it ≡ 1 (mod n)`. -/
theorem mod_mult_inverse_correct (a n : Int) (hn : 0 < n) (hcop : Int.gcd a n = 1) :
    0 ≤ mod_mult_inverse a n ∧ mod_mult_inverse a n < n ∧
      a * mod_mult_inverse a n ≡ 1 [ZMOD n] := by
  have hspec := egcd_loop_spec a n hn (n.natAbs + 1) a n 1 0
    (by omega) (le_of_lt hn) (Or.inr hn)
    rfl
    (by rw [one_mul])
    (by rw [zero_mul]; exact (Int.modEq_zero_iff_dvd.mpr dvd_rfl).symm)
  obtain ⟨hbez, hg⟩ := hspec
  set t := (egcd_loop (n.natAbs + 1) a n 1 0).2 with ht
  rw [hg, hcop] at hbez
  have hres : mod_mult_inverse a n = t % n := by
    rw [mod_mult_inverse]
    have : t % n + n = t % n + n * 1 := by ring
    rw [this, Int.add_mul_emod_self_left, Int.emod_emod_of_dvd t dvd_rfl]
  have hnn : 0 ≤ t % n := Int.emod_nonneg t (by omega)
  have hlt : t % n < n := Int.emod_lt_of_pos t hn
  refine ⟨by rw [hres]; exact hnn, by rw [hres]; exact hlt, ?_⟩
  rw [hres]
  have hme : t % n ≡ t [ZMOD n] := Int.emod_emod_of_dvd t dvd_rfl
  calc a * (t % n) ≡ a * t [ZMOD n] := Int.ModEq.mul_left a hme
    _ = t * a := by ring
    _ ≡ 1 [ZMOD n] := by simpa using hbez

/-- A value in `[0, n)` that is a right modular inverse of `a` is unique. -/
theorem mod_inverse_unique (a n r1 r2 : Int) (hn : 0 < n)
    (h1 : 0 ≤ r1) (h1' : r1 < n) (h2 : 0 ≤ r2) (h2' : r2 < n)
    (ha1 : a * r1 ≡ 1 [ZMOD n]) (ha2 : a * r2 ≡ 1 [ZMOD n]) : r1 = r2 := by
  have hme : r1 ≡ r2 [ZMOD n] := by
    calc r1 = r1 * 1 := by ring
      _ ≡ r1 * (a * r2) [ZMOD n] := (Int.ModEq.mul_left r1 ha2).symm
      _ = (a * r1) * r2 := by ring
      _ ≡ 1 * r2 [ZMOD n] := Int.ModEq.mul_right r2 ha1
      _ = r2 := by ring
  calc r1 = r1 % n := (Int.emod_eq_of_lt h1 h1').symm
    _ = r2 % n := hme
    _ = r2 := Int.emod_eq_of_lt h2 h2'

/-! ## Primality tests (`SimpleRSA._fermat_prime`, `SimpleRSA._miller_rabin_prime`)

The Python tests draw each witness by `self.secure_rng.randrange(2, number-1)`,
i.e. uniformly from `[2, number-2]`; `randrange` raises `ValueError` when the
range is empty, which happens exactly when `number - 1 ≤ 2`, i.e.
`number ≤ 3` (the tested numbers reaching the draw are never 1 or 2 in
`_fermat_prime`, but are in `_miller_rabin_prime`).  We embed the tests as
functions of the drawn witness list (one entry per loop iteration, so
`witnessCount = ws.length`); the codomain is `Option Bool`, `none` marking a
raised exception. -/

/-- The `for` loop of `SimpleRSA._fermat_prime` (src/rsa.py lines 37-42):
returns `false` on the first witness whose Fermat congruence fails, `none`
(raise) if a witness must be drawn from an empty range. -/
def fermat_loop (number : Nat) : List Nat → Option Bool
  | [] => some true
  | _w :: ws =>
    if number ≤ 3 then none
    else if modular_pow _w (number - 1) number ≠ 1 then some false
    else fermat_loop number ws

/-- `SimpleRSA._fermat_prime(number, witnesses)` (src/rsa.py lines 29-42). -/
def fermat_prime (number : Nat) (ws : List Nat) : Option Bool :=
  if number = 2 ∨ number = 1 then some true
  else fermat_loop number ws

/-- The `while d & 1 == 0` loop of `SimpleRSA._miller_rabin_prime`
(src/rsa.py lines 53-58): factors powers of two out of `d`, returning
`(s, d')` with `d = 2 ^ s * d'` and `d'` odd.  The loop halves `d` each
pass, so `fuel = d` passes suffice (for `d = 0` the source loop would not
terminate; the embedding is only used with `d = number - 1 ≥ 1`, since
`number = 1` is diverted beforehand — see `miller_rabin`). -/
def split2_aux : Nat → Nat → Nat × Nat
  | 0, d => (0, d)
  | fuel + 1, d =>
    if d % 2 = 0 ∧ d ≠ 0 then
      let p := split2_aux fuel (d / 2)
      (p.1 + 1, p.2)
    else (0, d)

def split2 (d : Nat) : Nat × Nat := split2_aux d d

/-- The inner `for _ in range(s)` loop of `SimpleRSA._miller_rabin_prime`
(src/rsa.py lines 62-66) for one witness: squares `x` up to `s` times,
returning `none` if the early `return False` fires (a nontrivial square
root of 1 was found), otherwise `some` of the last computed `y`. -/
def mr_loop (number : Nat) : Nat → Nat → Option Nat
  | 0, x => some x
  | s + 1, x =>
    let y := modular_pow x 2 number
    if y = 1 ∧ x ≠ 1 ∧ x ≠ number - 1 then none
    else mr_loop number s y

/-- The outer witness loop of `SimpleRSA._miller_rabin_prime`
(src/rsa.py lines 59-68): for each witness `a`, computes `x = a^d mod n`,
runs the squaring loop, and rejects unless the last `y` equals 1. -/
def mr_witness_loop (number s d : Nat) : List Nat → Option Bool
  | [] => some true
  | a :: ws =>
    if number ≤ 3 then none
    else
      match mr_loop number s (modular_pow a d number) with
      | none => some false
      | some y => if y ≠ 1 then some false else mr_witness_loop number s d ws

/-- `SimpleRSA._miller_rabin_prime(number, witnesses)` (src/rsa.py lines
44-69).  Even numbers other than 2 are rejected before any witness is
drawn.  For `number = 1` the source's `while d & 1 == 0` loop never
terminates (`d = 0`); no boolean is ever returned, which the embedding
marks as `none`. -/
def miller_rabin (number : Nat) (ws : List Nat) : Option Bool :=
  if number ≠ 2 ∧ number % 2 = 0 then some false
  else if number = 1 then none
  else mr_witness_loop number (split2 (number - 1)).1 (split2 (number - 1)).2 ws

theorem split2_aux_spec : ∀ fuel d, d ≠ 0 → d ≤ fuel →
    2 ^ (split2_aux fuel d).1 * (split2_aux fuel d).2 = d ∧
      (split2_aux fuel d).2 % 2 = 1 := by
  intro fuel
  induction fuel with
  | zero => intro d hd hf; omega
  | succ fuel ih =>
    intro d hd hf
    rw [split2_aux]
    by_cases hc : d % 2 = 0 ∧ d ≠ 0
    · rw [if_pos hc]
      have hd2 : d / 2 ≠ 0 := by omega
      have hf2 : d / 2 ≤ fuel := by omega
      obtain ⟨h1, h2⟩ := ih (d / 2) hd2 hf2
      constructor
      · simp only []
        rw [pow_succ]
        have : 2 ^ (split2_aux fuel (d / 2)).1 * 2 * (split2_aux fuel (d / 2)).2
            = 2 * (2 ^ (split2_aux fuel (d / 2)).1 * (split2_aux fuel (d / 2)).2) := by ring
        rw [this, h1]
        omega
      · simpa using h2
    · rw [if_neg hc]
      have hodd : d % 2 = 1 := by omega
      exact ⟨by simpa using Nat.one_mul d, hodd⟩

theorem split2_spec (d : Nat) (hd : d ≠ 0) :
    2 ^ (split2 d).1 * (split2 d).2 = d ∧ (split2 d).2 % 2 = 1 :=
  split2_aux_spec d d hd le_rfl

/-- In `ZMod p` (`p` prime), 1 has no square roots besides `±1`; read back
on natural representatives `< p`, a witness value `x` with `x² ≡ 1 (mod p)`
must be `1` or `p - 1`. -/
theorem sqrt_one_of_prime (p x : Nat) (hp : p.Prime) (hx : x < p)
    (hsq : x ^ 2 % p = 1) : x = 1 ∨ x = p - 1 := by
  haveI : Fact p.Prime := ⟨hp⟩
  have h2 : 2 ≤ p := hp.two_le
  have hcast : ((x : ZMod p)) ^ 2 = 1 := by
    have : (x ^ 2) % p = 1 % p := by
      rw [hsq, Nat.mod_eq_of_lt (by omega : (1 : Nat) < p)]
    have hmod : (x ^ 2 : Nat) ≡ 1 [MOD p] := this
    have := (ZMod.natCast_eq_natCast_iff _ _ _).mpr hmod
    push_cast at this
    exact this
  have hfac : ((x : ZMod p) - 1) * ((x : ZMod p) + 1) = 0 := by ring_nf; linear_combination hcast
  rcases mul_eq_zero.mp hfac with h | h
  · left
    have hxe : (x : ZMod p) = ((1 : Nat) : ZMod p) := by
      push_cast
      linear_combination h
    have := (ZMod.natCast_eq_natCast_iff _ _ _).mp hxe
    have h1 : 1 % p = 1 := Nat.mod_eq_of_lt (by omega)
    have hxm : x % p = x := Nat.mod_eq_of_lt hx
    unfold Nat.ModEq at this
    omega
  · right
    have hxe : (x : ZMod p) = ((p - 1 : Nat) : ZMod p) := by
      have hps : ((p : ZMod p)) = 0 := ZMod.natCast_self p
      have : ((p - 1 : Nat) : ZMod p) = (p : ZMod p) - 1 := by
        push_cast [Nat.cast_sub (by omega : 1 ≤ p)]
        ring
      rw [this, hps]
      linear_combination h
    have := (ZMod.natCast_eq_natCast_iff _ _ _).mp hxe
    have hxm : x % p = x := Nat.mod_eq_of_lt hx
    have hpm : (p - 1) % p = p - 1 := Nat.mod_eq_of_lt (by omega)
    unfold Nat.ModEq at this
    omega

/-- For a prime modulus the squaring loop of the Miller-Rabin test never
takes its early `return False` exit: it returns the last computed `y`,
namely `x^(2^s) mod p`. -/
theorem mr_loop_prime (p : Nat) (hp : p.Prime) :
    ∀ s x, x < p → mr_loop p s x = some (x ^ 2 ^ s % p) := by
  have h2 : 2 ≤ p := hp.two_le
  intro s
  induction s with
  | zero =>
    intro x hx
    simp [mr_loop, pow_one, Nat.mod_eq_of_lt hx]
  | succ s ih =>
    intro x hx
    rw [mr_loop]
    have hy : modular_pow x 2 p = x ^ 2 % p := modular_pow_correct x 2 p (by omega)
    by_cases hcond : modular_pow x 2 p = 1 ∧ x ≠ 1 ∧ x ≠ p - 1
    · exfalso
      obtain ⟨h1, hx1, hxp⟩ := hcond
      rw [hy] at h1
      rcases sqrt_one_of_prime p x hp hx h1 with h | h
      · exact hx1 h
      · exact hxp h
    · simp only [hcond, if_false, if_neg hcond]
      rw [ih (modular_pow x 2 p) (by rw [hy]; exact Nat.mod_lt _ (by omega))]
      congr 1
      rw [hy]
      rw [← Nat.pow_mod]
      rw [← pow_mul]
      congr 2
      rw [pow_succ]
      ring

/-- Fermat's little theorem, in the `%`-form used by the embedded tests. -/
theorem fermat_little (p a : Nat) (hp : p.Prime) (ha : ¬ p ∣ a) :
    a ^ (p - 1) % p = 1 := by
  have hcop : Nat.Coprime a p := Nat.Coprime.symm ((Nat.Prime.coprime_iff_not_dvd hp).mpr ha)
  have hme := Nat.ModEq.pow_totient hcop
  rw [Nat.totient_prime hp] at hme
  have h1 : 1 % p = 1 := Nat.mod_eq_of_lt hp.one_lt
  unfold Nat.ModEq at hme
  omega

theorem not_dvd_of_witness_range (p a : Nat) (h5 : 5 ≤ p) (ha : 2 ≤ a) (ha2 : a ≤ p - 2) :
    ¬ p ∣ a := by
  intro hdvd
  have := Nat.le_of_dvd (by omega) hdvd
  omega

/-- Every valid witness passes the Miller-Rabin witness loop when the
modulus is an odd prime `≥ 5`. -/
theorem mr_witness_loop_prime (p : Nat) (hp : p.Prime) (h5 : 5 ≤ p) (s d : Nat)
    (hsd : 2 ^ s * d = p - 1) :
    ∀ ws : List Nat, (∀ a ∈ ws, 2 ≤ a ∧ a ≤ p - 2) →
      mr_witness_loop p s d ws = some true := by
  intro ws
  induction ws with
  | nil => intro _; rfl
  | cons a ws ih =>
    intro hval
    have ha := hval a (List.mem_cons_self a ws)
    have hws : ∀ b ∈ ws, 2 ≤ b ∧ b ≤ p - 2 := fun b hb => hval b (List.mem_cons_of_mem a hb)
    rw [mr_witness_loop]
    rw [if_neg (by omega : ¬ p ≤ 3)]
    have hx : modular_pow a d p = a ^ d % p := modular_pow_correct a d p (by omega)
    have hlt : a ^ d % p < p := Nat.mod_lt _ (by omega)
    rw [hx, mr_loop_prime p hp s (a ^ d % p) hlt]
    have hy : (a ^ d % p) ^ 2 ^ s % p = 1 := by
      rw [← Nat.pow_mod, ← pow_mul]
      have hde : d * 2 ^ s = p - 1 := by rw [mul_comm] at hsd; exact hsd
      rw [hde]
      exact fermat_little p a hp (not_dvd_of_witness_range p a h5 ha.1 ha.2)
    rw [hy]
    simp only [ne_eq, not_true_eq_false, if_false, ite_false]
    simpa using ih hws

/-- `_miller_rabin_prime` returns `True` on every odd prime `p ≥ 5`, for
every choice of witnesses drawn from the sampling range `[2, p-2]`. -/
theorem miller_rabin_prime_true (p : Nat) (hp : p.Prime) (h5 : 5 ≤ p)
    (ws : List Nat) (hval : ∀ a ∈ ws, 2 ≤ a ∧ a ≤ p - 2) :
    miller_rabin p ws = some true := by
  have hodd : p % 2 = 1 := Nat.odd_iff.mp (hp.odd_of_ne_two (by omega))
  rw [miller_rabin]
  rw [if_neg (by omega : ¬ (p ≠ 2 ∧ p % 2 = 0))]
  rw [if_neg (by omega : ¬ p = 1)]
  obtain ⟨hsd, _⟩ := split2_spec (p - 1) (by omega)
  exact mr_witness_loop_prime p hp h5 _ _ hsd ws hval

/-- Without a prime modulus the squaring loop either takes its early exit
(`none`) or still returns the last `y`, `x^(2^s) mod m`. -/
theorem mr_loop_cases (m : Nat) (hm : 2 ≤ m) :
    ∀ s x, x < m → mr_loop m s x = none ∨ mr_loop m s x = some (x ^ 2 ^ s % m) := by
  intro s
  induction s with
  | zero =>
    intro x hx
    right
    simp [mr_loop, pow_one, Nat.mod_eq_of_lt hx]
  | succ s ih =>
    intro x hx
    rw [mr_loop]
    by_cases hcond : modular_pow x 2 m = 1 ∧ x ≠ 1 ∧ x ≠ m - 1
    · left
      simp [hcond]
    · have hy : modular_pow x 2 m = x ^ 2 % m := modular_pow_correct x 2 m (by omega)
      simp only [hcond, if_false, if_neg hcond]
      rcases ih (modular_pow x 2 m) (by rw [hy]; exact Nat.mod_lt _ (by omega)) with h | h
      · left; exact h
      · right
        rw [h, hy]
        congr 1
        rw [← Nat.pow_mod, ← pow_mul]
        congr 2
        rw [pow_succ]
        ring

/-- If some sampled witness `a` is a Fermat witness for `m`
(`a^(m-1) mod m ≠ 1`), the Miller-Rabin witness loop rejects. -/
theorem mr_witness_loop_false (m s d : Nat) (hm : 4 ≤ m) (hsd : 2 ^ s * d = m - 1) :
    ∀ ws : List Nat, (∃ a ∈ ws, a ^ (m - 1) % m ≠ 1) →
      mr_witness_loop m s d ws = some false := by
  intro ws
  induction ws with
  | nil => rintro ⟨a, ha, _⟩; cases ha
  | cons b ws ih =>
    rintro ⟨a, ha, hdet⟩
    rw [mr_witness_loop]
    rw [if_neg (by omega : ¬ m ≤ 3)]
    have hx : modular_pow b d m = b ^ d % m := modular_pow_correct b d m (by omega)
    have hlt : modular_pow b d m < m := by rw [hx]; exact Nat.mod_lt _ (by omega)
    rcases mr_loop_cases m (by omega) s (modular_pow b d m) hlt with h | h
    · rw [h]
    · rw [h]
      by_cases hy1 : modular_pow b d m ^ 2 ^ s % m = 1
      · rw [hy1]
        simp only [ne_eq, not_true_eq_false, if_false, ite_false]
        rcases List.mem_cons.mp ha with hba | hmem
        · exfalso
          subst hba
          apply hdet
          rw [hx, ← Nat.pow_mod, ← pow_mul] at hy1
          have hde : d * 2 ^ s = m - 1 := by rw [mul_comm] at hsd; exact hsd
          rw [hde] at hy1
          exact hy1
        · simpa using ih ⟨a, hmem, hdet⟩
      · simp [hy1]

/-- `_miller_rabin_prime(1, ·)` never returns: the `while d & 1 == 0` loop
spins forever on `d = 0` (`none` in the embedding). -/
theorem miller_rabin_one (ws : List Nat) : miller_rabin 1 ws = none := by
  rw [miller_rabin]
  rw [if_neg (by decide)]
  rw [if_pos rfl]

/-- `_miller_rabin_prime(2, w :: ws)` raises: `randrange(2, 1)` is empty. -/
theorem miller_rabin_two_cons (w : Nat) (ws : List Nat) :
    miller_rabin 2 (w :: ws) = none := by
  rw [miller_rabin]
  rw [if_neg (by decide)]
  rw [if_neg (by decide)]
  rw [mr_witness_loop, if_pos (by decide : (2 : Nat) ≤ 3)]

/-- `_miller_rabin_prime(3, w :: ws)` raises: `randrange(2, 2)` is empty. -/
theorem miller_rabin_three_cons (w : Nat) (ws : List Nat) :
    miller_rabin 3 (w :: ws) = none := by
  rw [miller_rabin]
  rw [if_neg (by decide)]
  rw [if_neg (by decide)]
  rw [mr_witness_loop, if_pos (by decide : (3 : Nat) ≤ 3)]

/-- `_fermat_prime(3, w :: ws)` raises: `randrange(2, 2)` is empty. -/
theorem fermat_prime_three_cons (w : Nat) (ws : List Nat) :
    fermat_prime 3 (w :: ws) = none := by
  rw [fermat_prime, if_neg (by decide)]
  rw [fermat_loop, if_pos (by decide : (3 : Nat) ≤ 3)]

/-! ## Keypair generation (`SimpleRSA.generate_keypair`) -/

/-- The initial public exponent computed by `generate_keypair`
(src/rsa.py line 133): the source writes `e = (2 ^ 16) + 1`, but Python's
`^` is bitwise XOR, so the computed value is `(2 XOR 16) + 1 = 19` rather
than the conventional `2**16 + 1 = 65537`. -/
def initial_public_exponent : Nat := (2 ^^^ 16) + 1

/-- Possible results of `SimpleRSA._find_prime(size)` (src/rsa.py lines
71-82): a `size`-bit draw forced odd (so `< 2^size`) for which both
probabilistic tests returned `True` with `DEFAULT_WITNESS_COUNT = 40`
witnesses, each drawn from the valid sampling range `[2, c-2]`.  This is
exactly what the source guarantees — the tests are probabilistic, so a
composite that fools every drawn witness (e.g. the base-2 strong
pseudoprime 3277 when every draw is 2) is a possible return value. -/
def find_prime_result (size c : Nat) : Prop :=
  c % 2 = 1 ∧ c < 2 ^ size ∧
    (∃ ws : List Nat, ws.length = 40 ∧ (∀ w ∈ ws, 2 ≤ w ∧ w ≤ c - 2) ∧
      fermat_prime c ws = some true) ∧
    (∃ ws : List Nat, ws.length = 40 ∧ (∀ w ∈ ws, 2 ≤ w ∧ w ≤ c - 2) ∧
      miller_rabin c ws = some true)

/-- Whatever `_find_prime` returns is at least 5: the returned value is
odd, and for 1 the Miller-Rabin factoring loop diverges while for 3 the
witness draw raises, so neither can produce `True`. -/
theorem find_prime_result_ge5 (size c : Nat) (h : find_prime_result size c) :
    5 ≤ c := by
  obtain ⟨hodd, _, _, ws, hlen, _, hmr⟩ := h
  by_contra hc
  push_neg at hc
  have hc13 : c = 1 ∨ c = 3 := by omega
  rcases hc13 with rfl | rfl
  · rw [miller_rabin_one] at hmr
    cases hmr
  · rcases ws with _ | ⟨w, ws2⟩
    · simp at hlen
    · rw [miller_rabin_three_cons] at hmr
      cases hmr

/-- The public-exponent selection of `generate_keypair` (src/rsa.py lines
133-135): the loop exits with `gcd(e, lam) = 1`, and the final `e` is
either the initial value `initial_public_exponent` (= 19) or a value
resampled from `randrange(3, lam)`, i.e. from `[3, lam)`. -/
def e_selected (lam e : Nat) : Prop :=
  gcd_euclidean e lam = 1 ∧ (e = initial_public_exponent ∨ (3 ≤ e ∧ e < lam))

/-- The relation tying the hidden random draws `p, q, e` to the keypair
`(pub, priv)` returned by `SimpleRSA.generate_keypair(size)` (src/rsa.py
lines 119-140): `prime_size = size // 2`, `n = p*q`,
`lam = lcm(p-1, q-1)`, `d = mod_mult_inverse(e, lam)` (a value in
`[0, lam)`, hence a non-negative integer). -/
def generated_keypair_from (size p q e : Nat) (pub priv : Nat × Nat) : Prop :=
  find_prime_result (size / 2) p ∧ find_prime_result (size / 2) q ∧
    e_selected (lcm_py (p - 1) (q - 1)) e ∧
    pub = (p * q, e) ∧
    priv = (p * q, (mod_mult_inverse (e : Int) ((lcm_py (p - 1) (q - 1) : Nat) : Int)).toNat)

/-- A keypair is a possible return value of `generate_keypair(size)` iff
some random draws produce it. -/
def generated_keypair (size : Nat) (pub priv : Nat × Nat) : Prop :=
  ∃ p q e, generated_keypair_from size p q e pub priv

theorem pow_linear_congr (p m t : Nat) (hp : p.Prime) :
    m ^ ((p - 1) * t + 1) ≡ m [MOD p] := by
  by_cases hpm : p ∣ m
  · have h1 : m ≡ 0 [MOD p] := (Nat.modEq_zero_iff_dvd).mpr hpm
    have h2 : m ^ ((p - 1) * t + 1) ≡ 0 [MOD p] :=
      (Nat.modEq_zero_iff_dvd).mpr (dvd_pow hpm (by omega))
    exact h2.trans h1.symm
  · have hf : m ^ (p - 1) ≡ 1 [MOD p] := by
      have h1 : m ^ (p - 1) % p = 1 := fermat_little p m hp hpm
      have h2 : 1 % p = 1 := Nat.mod_eq_of_lt hp.one_lt
      unfold Nat.ModEq
      omega
    calc m ^ ((p - 1) * t + 1) = (m ^ (p - 1)) ^ t * m := by
          rw [pow_add, pow_mul, pow_one]
      _ ≡ 1 ^ t * m [MOD p] := Nat.ModEq.mul_right m (hf.pow t)
      _ = m := by ring

/-- The deterministic core of textbook RSA correctness with the Carmichael
exponent: for distinct primes `p, q` and exponents with
`e*d ≡ 1 (mod lcm(p-1, q-1))`, raising to `e*d` is the identity modulo
`p*q` on `[0, p*q)`. -/
theorem rsa_core (p q e d m : Nat) (hp : p.Prime) (hq : q.Prime) (hpq : p ≠ q)
    (hm : m < p * q) (hed : e * d % Nat.lcm (p - 1) (q - 1) = 1) :
    m ^ (e * d) % (p * q) = m := by
  have hp2 : 2 ≤ p := hp.two_le
  have hq2 : 2 ≤ q := hq.two_le
  have hedpos : 1 ≤ e * d := by
    by_contra h
    have : e * d = 0 := by omega
    rw [this, Nat.zero_mod] at hed
    omega
  have hdiv := Nat.div_add_mod (e * d) (Nat.lcm (p - 1) (q - 1))
  have hlam_dvd : Nat.lcm (p - 1) (q - 1) ∣ e * d - 1 :=
    ⟨e * d / Nat.lcm (p - 1) (q - 1), by omega⟩
  have hcongr : ∀ r : Nat, r.Prime → (r - 1) ∣ Nat.lcm (p - 1) (q - 1) →
      m ^ (e * d) ≡ m [MOD r] := by
    intro r hr hrdvd
    obtain ⟨t, ht⟩ := hrdvd.trans hlam_dvd
    have : e * d = (r - 1) * t + 1 := by omega
    rw [this]
    exact pow_linear_congr r m t hr
  have hcp : m ^ (e * d) ≡ m [MOD p] := hcongr p hp (Nat.dvd_lcm_left _ _)
  have hcq : m ^ (e * d) ≡ m [MOD q] := hcongr q hq (Nat.dvd_lcm_right _ _)
  have hcop : Nat.Coprime p q := (Nat.coprime_primes hp hq).mpr hpq
  have hcn : m ^ (e * d) ≡ m [MOD p * q] :=
    (Nat.modEq_and_modEq_iff_modEq_mul hcop).mp ⟨hcp, hcq⟩
  unfold Nat.ModEq at hcn
  rw [hcn]
  exact Nat.mod_eq_of_lt hm

/-- Composing the two `_modular_pow` calls of `encrypt` and `decrypt`
gives exponentiation by `e*d`. -/
theorem modular_pow_compose (m e d n : Nat) (hn : 2 ≤ n) :
    modular_pow (modular_pow m e n) d n = m ^ (e * d) % n := by
  rw [modular_pow_correct _ _ _ (by omega), modular_pow_correct _ _ _ (by omega)]
  rw [← Nat.pow_mod, ← pow_mul]

/-- Round trip for keypairs generated from two distinct primes: with
`pub = (n, e)` and `priv = (n, d)` as built by `generate_keypair`,
`_modular_pow(_modular_pow(m, e, n), d, n) = m` for every `m < n`. -/
theorem generated_keypair_roundtrip (size p q e : Nat) (pub priv : Nat × Nat)
    (h : generated_keypair_from size p q e pub priv)
    (hp : Nat.Prime p) (hq : Nat.Prime q) (hpq : p ≠ q)
    (m : Nat) (hm : m < pub.1) :
    modular_pow (modular_pow m pub.2 pub.1) priv.2 priv.1 = m := by
  have hp5 : 5 ≤ p := find_prime_result_ge5 (size / 2) p h.1
  have hq5 : 5 ≤ q := find_prime_result_ge5 (size / 2) q h.2.1
  obtain ⟨_, _, ⟨hgcd, _⟩, hpub, hpriv⟩ := h
  subst hpub hpriv
  simp only [] at hm ⊢
  set lam := lcm_py (p - 1) (q - 1) with hlam
  have hlam_eq : lam = Nat.lcm (p - 1) (q - 1) := lcm_py_eq_lcm _ _
  have hlam_ge : 4 ≤ lam := by
    have hdvd : (p - 1) ∣ lam := by rw [hlam_eq]; exact Nat.dvd_lcm_left _ _
    have hpos : 0 < lam := by
      rw [hlam_eq]
      exact Nat.pos_of_ne_zero (Nat.lcm_ne_zero (by omega) (by omega))
    have := Nat.le_of_dvd hpos hdvd
    omega
  have hcop : Int.gcd (e : Int) ((lam : Nat) : Int) = 1 := by
    rw [gcd_euclidean_eq_gcd] at hgcd
    simpa [Int.gcd_natCast_natCast] using hgcd
  obtain ⟨hinv0, hinvlt, hinv⟩ :=
    mod_mult_inverse_correct (e : Int) ((lam : Nat) : Int) (by exact_mod_cast by omega) hcop
  set dI := mod_mult_inverse (e : Int) ((lam : Nat) : Int) with hdI
  have hdcast : ((dI.toNat : Nat) : Int) = dI := Int.toNat_of_nonneg hinv0
  have hed : e * dI.toNat % lam = 1 := by
    have h1 : ((e : Int) * dI) % (lam : Int) = 1 % (lam : Int) := hinv
    rw [← hdcast] at h1
    have h2 : (((e * dI.toNat : Nat) : Int)) % ((lam : Nat) : Int)
        = ((1 : Nat) : Int) % ((lam : Nat) : Int) := by push_cast; push_cast at h1; exact h1
    rw [← Int.natCast_mod, ← Int.natCast_mod] at h2
    have h3 : e * dI.toNat % lam = 1 % lam := Int.natCast_inj.mp h2
    rw [Nat.mod_eq_of_lt (show 1 < lam by omega)] at h3
    exact h3
  have hn2 : 2 ≤ p * q := by nlinarith
  rw [modular_pow_compose m e dI.toNat (p * q) hn2]
  rw [hlam_eq] at hed
  exact rsa_core p q e dI.toNat m hp hq hpq hm hed

/-! ## Cipher (`SimpleRSA.encrypt` / `SimpleRSA.decrypt`)

Text plaintexts are modelled by their `str.encode()` byte sequences
(UTF-8 bytes, as `List Nat` with entries `< 256`); the `bytes.decode()`
step of `decrypt` is the partial inverse of `str.encode()`, so decrypting
"as text" is modelled as producing the byte content of the decoded
string. -/

inductive ByteOrder
  | little
  | big
deriving DecidableEq

/-- `sys.byteorder` on the platform running the reference; modelled as
`little`, the byte order of the usual CPython platforms (x86-64,
aarch64). -/
def sys_byteorder : ByteOrder := ByteOrder.little

/-- `int.from_bytes(bs, byteorder='big')`. -/
def from_bytes_be (bs : List Nat) : Nat :=
  bs.foldl (fun acc b => acc * 256 + b) 0

/-- `int.from_bytes(bs, byteorder)`. -/
def from_bytes : ByteOrder → List Nat → Nat
  | ByteOrder.big, bs => from_bytes_be bs
  | ByteOrder.little, bs => from_bytes_be bs.reverse

/-- `v.to_bytes(len, byteorder='little')`: the `len` base-256 digits of
`v`, least significant first. -/
def to_bytes_le : Nat → Nat → List Nat
  | 0, _ => []
  | l + 1, v => v % 256 :: to_bytes_le l (v / 256)

/-- `v.to_bytes(len, byteorder)`. -/
def to_bytes : ByteOrder → Nat → Nat → List Nat
  | ByteOrder.big, l, v => (to_bytes_le l v).reverse
  | ByteOrder.little, l, v => to_bytes_le l v

/-- Python's `int.bit_length()`: the number of binary digits of `v`
(`0` for `v = 0`), computed by repeated halving (structurally, on a
budget of `v` halvings, which suffices since halving reaches 0 within
`v` steps). -/
def bit_length_aux : Nat → Nat → Nat
  | 0, _ => 0
  | fuel + 1, v => if v = 0 then 0 else bit_length_aux fuel (v / 2) + 1

def bit_length (v : Nat) : Nat := bit_length_aux v v

/-- `math.ceil(v.bit_length() / 8)` (src/rsa.py line 165). -/
def byte_length (v : Nat) : Nat := (bit_length v + 7) / 8

/-- The two key attributes of a `SimpleRSA` object.  `none` models an
absent key half (attribute never assigned); accessing it makes the
operation fail. -/
structure RSAState where
  public_key : Option (Nat × Nat)
  private_key : Option (Nat × Nat)
deriving DecidableEq

/-- A fresh `SimpleRSA()` instance: `__init__` (src/rsa.py lines 8-10)
assigns neither key attribute, so both key halves are absent. -/
def freshRSA : RSAState := ⟨none, none⟩

/-- The failure surfaced when an operation needs a key half that is not
present (the spec's `MissingKeyError`; the source raises on the missing
attribute / the `if not self...key` check). -/
inductive RSAError
  | missingKey
deriving DecidableEq

/-- Plaintext argument of `encrypt`: textual (modelled by its encoded
byte sequence) or integer. -/
inductive Plaintext
  | text (bs : List Nat)
  | num (v : Nat)

/-- `SimpleRSA.encrypt(plaintext)` (src/rsa.py lines 142-153): fails when
the public key is absent; a textual plaintext is framed by
`int.from_bytes(plaintext.encode(), sys.byteorder)`; returns
`_modular_pow(plaintext, e, n)`.  Note: there is no check that the framed
integer is below the modulus. -/
def encrypt (st : RSAState) (pt : Plaintext) : Except RSAError Nat :=
  match st.public_key with
  | none => Except.error RSAError.missingKey
  | some (n, e) =>
    let m := match pt with
      | Plaintext.text bs => from_bytes sys_byteorder bs
      | Plaintext.num v => v
    Except.ok (modular_pow m e n)

/-- The re-encoding of the decrypted integer performed by `decrypt` for
text output (src/rsa.py lines 164-166): `ceil(bit_length/8)` bytes in
`sys.byteorder` order. -/
def int_to_text_bytes (v : Nat) : List Nat :=
  to_bytes sys_byteorder (byte_length v) v

/-- `SimpleRSA.decrypt(encrypted_text, type)` (src/rsa.py lines 155-168):
fails when the private key is absent; computes
`plainint = _modular_pow(c, d, n)` and either returns it (`Sum.inl`) or,
for text output, re-encodes it as `ceil(bit_length/8)` bytes in platform
order and decodes (`Sum.inr`, the decoded text's byte content). -/
def decrypt (st : RSAState) (c : Nat) (asText : Bool) :
    Except RSAError (Nat ⊕ List Nat) :=
  match st.private_key with
  | none => Except.error RSAError.missingKey
  | some (n, d) =>
    let plainint := modular_pow c d n
    if asText then Except.ok (Sum.inr (int_to_text_bytes plainint))
    else Except.ok (Sum.inl plainint)

theorem from_bytes_be_append (xs : List Nat) (b : Nat) :
    from_bytes_be (xs ++ [b]) = from_bytes_be xs * 256 + b := by
  rw [from_bytes_be, from_bytes_be, List.foldl_append]
  rfl

theorem from_bytes_le_cons (b : Nat) (rest : List Nat) :
    from_bytes ByteOrder.little (b :: rest) =
      b + 256 * from_bytes ByteOrder.little rest := by
  show from_bytes_be (b :: rest).reverse = b + 256 * from_bytes_be rest.reverse
  rw [List.reverse_cons, from_bytes_be_append]
  ring

theorem from_bytes_le_lt (bs : List Nat) (hb : ∀ b ∈ bs, b < 256) :
    from_bytes ByteOrder.little bs < 256 ^ bs.length := by
  induction bs with
  | nil => simp [from_bytes, from_bytes_be]
  | cons b rest ih =>
    rw [from_bytes_le_cons]
    have h1 := hb b (List.mem_cons_self b rest)
    have h2 := ih (fun x hx => hb x (List.mem_cons_of_mem b hx))
    simp only [List.length_cons, pow_succ]
    calc b + 256 * from_bytes ByteOrder.little rest
        ≤ 255 + 256 * (256 ^ rest.length - 1) := by omega
      _ < 256 ^ rest.length * 256 := by
          have : 1 ≤ 256 ^ rest.length := Nat.one_le_pow _ _ (by omega)
          omega

theorem from_bytes_le_ge (bs : List Nat) (hne : bs ≠ [])
    (hlast : bs.getLast hne ≠ 0) :
    256 ^ (bs.length - 1) ≤ from_bytes ByteOrder.little bs := by
  induction bs with
  | nil => exact absurd rfl hne
  | cons b rest ih =>
    by_cases hr : rest = []
    · subst hr
      have hb : b ≠ 0 := by simpa [List.getLast] using hlast
      have hfb : from_bytes ByteOrder.little [b] = b := by
        rw [from_bytes_le_cons]
        simp [from_bytes, from_bytes_be]
      simp only [List.length_cons, List.length_nil]
      rw [hfb]
      simpa using Nat.one_le_iff_ne_zero.mpr hb
    · have hlast2 : rest.getLast hr ≠ 0 := by
        rwa [List.getLast_cons hr] at hlast
      have hge := ih hr hlast2
      rw [from_bytes_le_cons]
      have hlen0 : rest.length ≠ 0 := by simpa [List.length_eq_zero] using hr
      have hlen : (b :: rest).length - 1 = (rest.length - 1) + 1 := by
        simp only [List.length_cons]
        omega
      rw [hlen, pow_succ]
      omega

theorem bit_length_aux_zero : ∀ fuel, bit_length_aux fuel 0 = 0 := by
  intro fuel
  cases fuel <;> simp [bit_length_aux]

theorem bit_length_aux_spec : ∀ fuel v, v ≤ fuel →
    v < 2 ^ bit_length_aux fuel v ∧
      (v ≠ 0 → 1 ≤ bit_length_aux fuel v ∧ 2 ^ (bit_length_aux fuel v - 1) ≤ v) := by
  intro fuel
  induction fuel with
  | zero =>
    intro v hv
    have : v = 0 := by omega
    subst this
    exact ⟨by simp [bit_length_aux], fun h => absurd rfl h⟩
  | succ fuel ih =>
    intro v hv
    by_cases h0 : v = 0
    · subst h0
      exact ⟨by simp [bit_length_aux], fun h => absurd rfl h⟩
    · have hrec : bit_length_aux (fuel + 1) v = bit_length_aux fuel (v / 2) + 1 := by
        rw [bit_length_aux, if_neg h0]
      obtain ⟨ihlt, ihge⟩ := ih (v / 2) (by omega)
      constructor
      · rw [hrec, pow_succ]
        omega
      · intro _
        rw [hrec]
        refine ⟨by omega, ?_⟩
        by_cases h2 : v / 2 = 0
        · rw [h2, bit_length_aux_zero]
          have he : (0 + 1 - 1 : Nat) = 0 := rfl
          rw [he, pow_zero]
          omega
        · obtain ⟨hge1, hge2⟩ := ihge h2
          have : bit_length_aux fuel (v / 2) + 1 - 1 = (bit_length_aux fuel (v / 2) - 1) + 1 := by
            omega
          rw [this, pow_succ]
          omega

theorem bit_length_spec (v : Nat) :
    v < 2 ^ bit_length v ∧ (v ≠ 0 → 1 ≤ bit_length v ∧ 2 ^ (bit_length v - 1) ≤ v) :=
  bit_length_aux_spec v v le_rfl

theorem to_bytes_le_from_bytes (bs : List Nat) (hb : ∀ b ∈ bs, b < 256) :
    to_bytes_le bs.length (from_bytes ByteOrder.little bs) = bs := by
  induction bs with
  | nil => rfl
  | cons b rest ih =>
    have h1 := hb b (List.mem_cons_self b rest)
    have ih2 := ih (fun x hx => hb x (List.mem_cons_of_mem b hx))
    rw [from_bytes_le_cons, List.length_cons, to_bytes_le]
    have hmod : (b + 256 * from_bytes ByteOrder.little rest) % 256 = b := by
      omega
    have hdiv : (b + 256 * from_bytes ByteOrder.little rest) / 256
        = from_bytes ByteOrder.little rest := by
      omega
    rw [hmod, hdiv, ih2]

theorem byte_length_from_bytes (bs : List Nat) (hne : bs ≠ [])
    (hlast : bs.getLast hne ≠ 0) (hb : ∀ b ∈ bs, b < 256) :
    byte_length (from_bytes ByteOrder.little bs) = bs.length := by
  set v := from_bytes ByteOrder.little bs with hv
  set L := bs.length with hL
  have hlt : v < 2 ^ (8 * L) := by
    have := from_bytes_le_lt bs hb
    calc v < 256 ^ L := this
      _ = 2 ^ (8 * L) := by rw [pow_mul]; norm_num
  have hge : 2 ^ (8 * (L - 1)) ≤ v := by
    have := from_bytes_le_ge bs hne hlast
    calc (2 : Nat) ^ (8 * (L - 1)) = 256 ^ (L - 1) := by rw [pow_mul]; norm_num
      _ ≤ v := this
  have hv0 : v ≠ 0 := by
    have h1 : (1 : Nat) ≤ 2 ^ (8 * (L - 1)) := Nat.one_le_pow _ _ (by omega)
    omega
  obtain ⟨hbl_lt, hbl_cond⟩ := bit_length_spec v
  obtain ⟨hbl1, hbl_ge⟩ := hbl_cond hv0
  have hup : bit_length v ≤ 8 * L := by
    by_contra h
    push_neg at h
    have : 2 ^ (8 * L) ≤ 2 ^ (bit_length v - 1) :=
      Nat.pow_le_pow_right (by omega) (by omega)
    omega
  have hdown : 8 * (L - 1) < bit_length v := by
    by_contra h
    push_neg at h
    have : 2 ^ (bit_length v) ≤ 2 ^ (8 * (L - 1)) :=
      Nat.pow_le_pow_right (by omega) h
    omega
  have hLpos : 1 ≤ L := by
    have : bs.length ≠ 0 := by simpa [List.length_eq_zero] using hne
    omega
  rw [byte_length]
  omega

/-- The text framing of `encrypt` and the text re-encoding of `decrypt`
are mutually inverse on byte sequences without a trailing zero byte. -/
theorem int_to_text_bytes_from_bytes (bs : List Nat) (hne : bs ≠ [])
    (hlast : bs.getLast hne ≠ 0) (hb : ∀ b ∈ bs, b < 256) :
    int_to_text_bytes (from_bytes sys_byteorder bs) = bs := by
  rw [int_to_text_bytes, sys_byteorder]
  rw [byte_length_from_bytes bs hne hlast hb]
  exact to_bytes_le_from_bytes bs hb

/-! ## DER codec, modelled from the spec (§4.6)

`to_der_sequence` in src/pem.py and the key loaders in src/rsa.py are
unimplemented stubs (`pass`); the spec defines their intended behavior,
which the following definitions model.  Bytes are `Nat` values `< 256`. -/

/-- Modelled from the spec (§4.6): the minimal big-endian base-256
representation of a non-negative value (empty for 0). -/
def min_be_bytes (v : Nat) : List Nat := (to_bytes_le (byte_length v) v).reverse

/-- Modelled from the spec (§4.6): DER INTEGER content octets of a
non-negative value — minimal big-endian representation with a zero byte
prepended when the leading byte has its top bit set (and `[0]` for 0,
whose minimal representation is empty). -/
def der_int_content (v : Nat) : List Nat :=
  match min_be_bytes v with
  | [] => [0]
  | b :: bs => if 128 ≤ b then 0 :: b :: bs else b :: bs

/-- Modelled from the spec (§4.6): definite-form length octets — short
form (single byte) for lengths `≤ 127`, long form
`(0x80 + numLengthBytes) :: big-endian length bytes` otherwise. -/
def der_len (n : Nat) : List Nat :=
  if n ≤ 127 then [n] else (128 + (min_be_bytes n).length) :: min_be_bytes n

/-- Modelled from the spec (§4.6): INTEGER TLV (tag `0x02`). -/
def der_int (v : Nat) : List Nat :=
  2 :: der_len (der_int_content v).length ++ der_int_content v

/-- Modelled from the spec (§4.6): `encodeSequence` for the two-integer
key SEQUENCE (tag `0x30`), i.e. the intended `to_der_sequence`. -/
def encode_sequence2 (a b : Nat) : List Nat :=
  48 :: der_len (der_int a ++ der_int b).length ++ (der_int a ++ der_int b)

/-- Decode-side failures of the modelled codec (the spec's
`MalformedDerError` and `MalformedPemError`). -/
inductive CodecError
  | malformedDer
  | malformedPem
deriving DecidableEq

/-- Modelled from the spec (§4.6): parse definite-form length octets,
returning the decoded length and the remaining input. -/
def parse_der_len : List Nat → Except CodecError (Nat × List Nat)
  | [] => Except.error CodecError.malformedDer
  | l :: rest =>
    if l ≤ 127 then Except.ok (l, rest)
    else
      let k := l - 128
      if k = 0 then Except.error CodecError.malformedDer
      else if rest.length < k then Except.error CodecError.malformedDer
      else Except.ok (from_bytes_be (rest.take k), rest.drop k)

/-- Modelled from the spec (§4.6): parse one INTEGER TLV, returning the
non-negative value and the remaining input. -/
def parse_der_int (bs : List Nat) : Except CodecError (Nat × List Nat) :=
  match bs with
  | 2 :: rest =>
    match parse_der_len rest with
    | Except.error er => Except.error er
    | Except.ok (n, rest2) =>
      if rest2.length < n then Except.error CodecError.malformedDer
      else Except.ok (from_bytes_be (rest2.take n), rest2.drop n)
  | _ => Except.error CodecError.malformedDer

/-- Modelled from the spec (§4.6): `decodeSequence` specialised to the
two-INTEGER key SEQUENCE — checks the SEQUENCE tag and content length and
parses exactly two INTEGERs. -/
def decode_sequence2 : List Nat → Except CodecError (Nat × Nat)
  | [] => Except.error CodecError.malformedDer
  | t :: rest =>
    if t ≠ 48 then Except.error CodecError.malformedDer
    else
      match parse_der_len rest with
      | Except.error er => Except.error er
      | Except.ok (n, rest2) =>
        if rest2.length ≠ n then Except.error CodecError.malformedDer
        else
          match parse_der_int rest2 with
          | Except.error er => Except.error er
          | Except.ok (a, rest3) =>
            match parse_der_int rest3 with
            | Except.error er => Except.error er
            | Except.ok (b, rest4) =>
              if rest4 ≠ [] then Except.error CodecError.malformedDer
              else Except.ok (a, b)

theorem to_bytes_le_length (L v : Nat) : (to_bytes_le L v).length = L := by
  induction L generalizing v with
  | zero => rfl
  | succ L ih => simp [to_bytes_le, ih]

theorem min_be_bytes_length (v : Nat) : (min_be_bytes v).length = byte_length v := by
  rw [min_be_bytes, List.length_reverse, to_bytes_le_length]

theorem from_bytes_le_to_bytes_le (L v : Nat) (hv : v < 256 ^ L) :
    from_bytes ByteOrder.little (to_bytes_le L v) = v := by
  induction L generalizing v with
  | zero =>
    simp only [pow_zero] at hv
    have : v = 0 := by omega
    subst this
    rfl
  | succ L ih =>
    rw [to_bytes_le, from_bytes_le_cons]
    rw [ih (v / 256) (by rw [pow_succ] at hv; omega)]
    omega

theorem from_bytes_be_min_be (v : Nat) : from_bytes_be (min_be_bytes v) = v := by
  have h1 : v < 256 ^ byte_length v := by
    obtain ⟨hlt, _⟩ := bit_length_spec v
    have h8 : bit_length v ≤ 8 * byte_length v := by rw [byte_length]; omega
    calc v < 2 ^ bit_length v := hlt
      _ ≤ 2 ^ (8 * byte_length v) := Nat.pow_le_pow_right (by omega) h8
      _ = 256 ^ byte_length v := by rw [pow_mul]; norm_num
  have h2 : from_bytes ByteOrder.little (to_bytes_le (byte_length v) v) = v :=
    from_bytes_le_to_bytes_le _ v h1
  rw [min_be_bytes]
  exact h2

theorem from_bytes_be_cons_zero (bs : List Nat) :
    from_bytes_be (0 :: bs) = from_bytes_be bs := by
  rw [from_bytes_be, from_bytes_be, List.foldl_cons]

theorem from_bytes_be_der_int_content (v : Nat) :
    from_bytes_be (der_int_content v) = v := by
  rw [der_int_content]
  rcases hbs : min_be_bytes v with _ | ⟨b, bs⟩
  · have := from_bytes_be_min_be v
    rw [hbs] at this
    simp only []
    rw [← this]
    rfl
  · have := from_bytes_be_min_be v
    rw [hbs] at this
    by_cases h : 128 ≤ b
    · simp only [if_pos h]
      rw [from_bytes_be_cons_zero, this]
    · simp only [if_neg h]
      exact this

theorem parse_der_len_round (n : Nat) (rest : List Nat) :
    parse_der_len (der_len n ++ rest) = Except.ok (n, rest) := by
  rw [der_len]
  by_cases h : n ≤ 127
  · rw [if_pos h]
    simp only [List.cons_append, List.nil_append, parse_der_len]
    rw [if_pos h]
  · rw [if_neg h]
    have hk : (min_be_bytes n).length ≠ 0 := by
      rw [min_be_bytes_length, byte_length]
      obtain ⟨_, hcond⟩ := bit_length_spec n
      obtain ⟨h1, _⟩ := hcond (by omega)
      omega
    simp only [List.cons_append, parse_der_len]
    rw [if_neg (by omega : ¬ 128 + (min_be_bytes n).length ≤ 127)]
    have hsub : 128 + (min_be_bytes n).length - 128 = (min_be_bytes n).length := by omega
    simp only [hsub]
    rw [if_neg hk]
    rw [if_neg (by rw [List.length_append]; omega)]
    rw [List.take_left, List.drop_left]
    rw [from_bytes_be_min_be]

theorem parse_der_int_round (v : Nat) (rest : List Nat) :
    parse_der_int (der_int v ++ rest) = Except.ok (v, rest) := by
  rw [der_int]
  simp only [List.cons_append, List.append_assoc, parse_der_int]
  rw [parse_der_len_round]
  simp only []
  rw [if_neg (by rw [List.length_append]; omega)]
  rw [List.take_left, List.drop_left]
  rw [from_bytes_be_der_int_content]

theorem decode_encode_sequence2 (a b : Nat) :
    decode_sequence2 (encode_sequence2 a b) = Except.ok (a, b) := by
  rw [encode_sequence2]
  simp only [List.cons_append, decode_sequence2]
  rw [if_neg (by decide : ¬ (48 : Nat) ≠ 48)]
  rw [parse_der_len_round]
  simp only []
  rw [if_neg (by simp)]
  rw [parse_der_int_round]
  simp only []
  have hb : der_int b = der_int b ++ [] := by simp
  rw [hb, parse_der_int_round]
  simp

/-! ## PEM codec, modelled from the spec (§4.7) -/

/-- The base64 alphabet as ASCII codes (`A`-`Z`, `a`-`z`, `0`-`9`, `+`,
`/`); index `i` maps to its digit character. -/
def b64_alphabet : List Nat :=
  [65, 66, 67, 68, 69, 70, 71, 72, 73, 74, 75, 76, 77, 78, 79, 80, 81, 82,
   83, 84, 85, 86, 87, 88, 89, 90,
   97, 98, 99, 100, 101, 102, 103, 104, 105, 106, 107, 108, 109, 110, 111,
   112, 113, 114, 115, 116, 117, 118, 119, 120, 121, 122,
   48, 49, 50, 51, 52, 53, 54, 55, 56, 57, 43, 47]

def b64_char (i : Nat) : Nat := b64_alphabet.getD i 0

def b64_index (c : Nat) : Nat := b64_alphabet.indexOf c

/-- Modelled from the spec (§4.7): `base64.b64encode` — 3 input bytes map
to 4 digit characters; a final group of 1 or 2 bytes is padded with `=`
(ASCII 61). -/
def b64_encode : List Nat → List Nat
  | x :: y :: z :: rest =>
    b64_char (x / 4) :: b64_char (x % 4 * 16 + y / 16) ::
      b64_char (y % 16 * 4 + z / 64) :: b64_char (z % 64) :: b64_encode rest
  | [x, y] =>
    [b64_char (x / 4), b64_char (x % 4 * 16 + y / 16), b64_char (y % 16 * 4), 61]
  | [x] => [b64_char (x / 4), b64_char (x % 4 * 16), 61, 61]
  | [] => []

/-- Modelled from the spec (§4.7): base64 decoding of well-formed input —
each 4-character group yields 3 bytes, or fewer on a padded final group. -/
def b64_decode : List Nat → List Nat
  | c1 :: c2 :: c3 :: c4 :: rest =>
    if c3 = 61 then [b64_index c1 * 4 + b64_index c2 / 16]
    else if c4 = 61 then
      [b64_index c1 * 4 + b64_index c2 / 16, b64_index c2 % 16 * 16 + b64_index c3 / 4]
    else
      (b64_index c1 * 4 + b64_index c2 / 16) ::
        (b64_index c2 % 16 * 16 + b64_index c3 / 4) ::
        (b64_index c3 % 4 * 64 + b64_index c4) :: b64_decode rest
  | _ => []

theorem b64_index_char : ∀ i, i < 64 → b64_index (b64_char i) = i := by decide

theorem b64_char_ne_pad : ∀ i, i < 64 → b64_char i ≠ 61 := by decide

theorem b64_char_ne_newline : ∀ i, i < 64 → b64_char i ≠ 10 := by decide

theorem b64_decode_encode (bs : List Nat) (hb : ∀ b ∈ bs, b < 256) :
    b64_decode (b64_encode bs) = bs := by
  induction bs using b64_encode.induct with
  | case1 x y z rest ih =>
    have hx : x < 256 := hb x (by simp)
    have hy : y < 256 := hb y (by simp)
    have hz : z < 256 := hb z (by simp)
    have ih2 := ih (fun b hbmem => hb b (by simp [hbmem]))
    rw [b64_encode, b64_decode]
    rw [if_neg (b64_char_ne_pad _ (by omega))]
    rw [if_neg (b64_char_ne_pad _ (by omega))]
    rw [b64_index_char _ (by omega), b64_index_char _ (by omega),
      b64_index_char _ (by omega), b64_index_char _ (by omega)]
    rw [ih2]
    simp only [List.cons.injEq]
    refine ⟨?_, ?_, ?_, trivial⟩ <;> omega
  | case2 x y =>
    have hx : x < 256 := hb x (by simp)
    have hy : y < 256 := hb y (by simp)
    rw [b64_encode, b64_decode]
    rw [if_neg (b64_char_ne_pad _ (by omega))]
    rw [if_pos rfl]
    rw [b64_index_char _ (by omega), b64_index_char _ (by omega),
      b64_index_char _ (by omega)]
    simp only [List.cons.injEq]
    refine ⟨?_, ?_, trivial⟩ <;> omega
  | case3 x =>
    have hx : x < 256 := hb x (by simp)
    rw [b64_encode, b64_decode]
    rw [if_pos rfl]
    rw [b64_index_char _ (by omega), b64_index_char _ (by omega)]
    simp only [List.cons.injEq]
    refine ⟨?_, trivial⟩
    omega
  | case4 => rfl

theorem b64_encode_ne_newline (bs : List Nat) (hb : ∀ b ∈ bs, b < 256) :
    ∀ c ∈ b64_encode bs, c ≠ 10 := by
  induction bs using b64_encode.induct with
  | case1 x y z rest ih =>
    have hx : x < 256 := hb x (by simp)
    have hy : y < 256 := hb y (by simp)
    have hz : z < 256 := hb z (by simp)
    have ih2 := ih (fun b hbmem => hb b (by simp [hbmem]))
    intro c hc
    rw [b64_encode] at hc
    simp only [List.mem_cons] at hc
    rcases hc with rfl | rfl | rfl | rfl | hc
    · exact b64_char_ne_newline _ (by omega)
    · exact b64_char_ne_newline _ (by omega)
    · exact b64_char_ne_newline _ (by omega)
    · exact b64_char_ne_newline _ (by omega)
    · exact ih2 c hc
  | case2 x y =>
    have hx : x < 256 := hb x (by simp)
    have hy : y < 256 := hb y (by simp)
    intro c hc
    rw [b64_encode] at hc
    simp only [List.mem_cons, List.not_mem_nil, or_false] at hc
    rcases hc with rfl | rfl | rfl | rfl
    · exact b64_char_ne_newline _ (by omega)
    · exact b64_char_ne_newline _ (by omega)
    · exact b64_char_ne_newline _ (by omega)
    · omega
  | case3 x =>
    have hx : x < 256 := hb x (by simp)
    intro c hc
    rw [b64_encode] at hc
    simp only [List.mem_cons, List.not_mem_nil, or_false] at hc
    rcases hc with rfl | rfl | rfl | rfl
    · exact b64_char_ne_newline _ (by omega)
    · exact b64_char_ne_newline _ (by omega)
    · omega
    · omega
  | case4 =>
    intro c hc
    rw [b64_encode] at hc
    exact absurd hc (List.not_mem_nil c)

/-- Modelled from the spec (§4.7): insert a line break (ASCII 10) every 64
characters.  Each pass emits 64 characters, so a budget of `l.length`
passes reproduces the loop. -/
def wrap64_aux : Nat → List Nat → List Nat
  | 0, l => l
  | fuel + 1, l =>
    if l.length ≤ 64 then l
    else l.take 64 ++ 10 :: wrap64_aux fuel (l.drop 64)

def wrap64 (l : List Nat) : List Nat := wrap64_aux l.length l

theorem wrap64_aux_filter (fuel : Nat) : ∀ l : List Nat, (∀ c ∈ l, c ≠ 10) →
    (wrap64_aux fuel l).filter (fun c => c != 10) = l := by
  induction fuel with
  | zero =>
    intro l hl
    rw [wrap64_aux]
    rw [List.filter_eq_self.mpr]
    intro a ha
    simpa using hl a ha
  | succ fuel ih =>
    intro l hl
    rw [wrap64_aux]
    by_cases hlen : l.length ≤ 64
    · rw [if_pos hlen]
      rw [List.filter_eq_self.mpr]
      intro a ha
      simpa using hl a ha
    · rw [if_neg hlen]
      rw [List.filter_append]
      have h1 : (l.take 64).filter (fun c => c != 10) = l.take 64 := by
        rw [List.filter_eq_self.mpr]
        intro a ha
        simpa using hl a (List.mem_of_mem_take ha)
      have h2 : (10 :: wrap64_aux fuel (l.drop 64)).filter (fun c => c != 10)
          = (wrap64_aux fuel (l.drop 64)).filter (fun c => c != 10) := by
        rw [List.filter_cons]
        simp
      rw [h1, h2, ih (l.drop 64) (fun a ha => hl a (List.mem_of_mem_drop ha))]
      exact List.take_append_drop 64 l

theorem wrap64_filter (l : List Nat) (hl : ∀ c ∈ l, c ≠ 10) :
    (wrap64 l).filter (fun c => c != 10) = l :=
  wrap64_aux_filter l.length l hl

/-- `-----BEGIN <label> KEY-----` as ASCII codes (src/pem.py line 3 /
spec §4.7); the label is `PUBLIC` or `PRIVATE`, also as codes. -/
def start_marker (label : List Nat) : List Nat :=
  [45, 45, 45, 45, 45, 66, 69, 71, 73, 78, 32] ++ label ++
    [32, 75, 69, 89, 45, 45, 45, 45, 45]

/-- `-----END <label> KEY-----` as ASCII codes (src/pem.py line 4). -/
def end_marker (label : List Nat) : List Nat :=
  [45, 45, 45, 45, 45, 69, 78, 68, 32] ++ label ++
    [32, 75, 69, 89, 45, 45, 45, 45, 45]

/-- Modelled from the spec (§4.7): the full PEM document written for a DER
payload — start marker, newline, base64 text wrapped at 64 columns,
newline, end marker. -/
def pem_write (label der : List Nat) : List Nat :=
  start_marker label ++ 10 :: wrap64 (b64_encode der) ++ 10 :: end_marker label

/-- Modelled from the spec (§4.7): read a PEM document — check the two
markers, strip them, drop the line breaks from the body and base64-decode
it. -/
def pem_read (label doc : List Nat) : Except CodecError (List Nat) :=
  if doc.take (start_marker label).length = start_marker label ∧
      doc.drop (doc.length - (end_marker label).length) = end_marker label ∧
      (start_marker label).length + (end_marker label).length ≤ doc.length
  then
    Except.ok (b64_decode
      (((doc.drop (start_marker label).length).take
          (doc.length - (start_marker label).length - (end_marker label).length)).filter
        (fun c => c != 10)))
  else Except.error CodecError.malformedPem

/-- Modelled from the spec (§4.6-4.7): the intended `write_public_key` /
`write_private_key` pipeline, producing the PEM text for the two-integer
DER SEQUENCE of a key tuple. -/
def write_key (label : List Nat) (key : Nat × Nat) : List Nat :=
  pem_write label (encode_sequence2 key.1 key.2)

/-- Modelled from the spec (§4.6-4.7): the intended `load_public_key` /
`load_private_key` pipeline, recovering the key tuple from PEM text. -/
def read_key (label : List Nat) (doc : List Nat) : Except CodecError (Nat × Nat) :=
  match pem_read label doc with
  | Except.error er => Except.error er
  | Except.ok der => decode_sequence2 der

theorem take_first_of_three (s m e : List Nat) : (s ++ m ++ e).take s.length = s := by
  rw [List.append_assoc]
  exact List.take_left s (m ++ e)

theorem drop_last_of_three (s m e : List Nat) :
    (s ++ m ++ e).drop ((s ++ m ++ e).length - e.length) = e := by
  have h1 : (s ++ m ++ e).length - e.length = (s ++ m).length := by
    rw [List.length_append]
    omega
  rw [h1, List.drop_left]

theorem mid_of_three (s m e : List Nat) :
    ((s ++ m ++ e).drop s.length).take ((s ++ m ++ e).length - s.length - e.length) = m := by
  have h1 : (s ++ m ++ e).drop s.length = m ++ e := by
    rw [List.append_assoc, List.drop_left]
  have h2 : (s ++ m ++ e).length - s.length - e.length = m.length := by
    rw [List.length_append, List.length_append]
    omega
  rw [h1, h2, List.take_left]

theorem len_three_ge (s m e : List Nat) :
    s.length + e.length ≤ (s ++ m ++ e).length := by
  rw [List.length_append, List.length_append]
  omega

theorem pem_read_write (label der : List Nat) (hder : ∀ b ∈ der, b < 256) :
    pem_read label (pem_write label der) = Except.ok der := by
  have hdoc : pem_write label der
      = start_marker label ++ (10 :: wrap64 (b64_encode der) ++ [10]) ++ end_marker label := by
    rw [pem_write]
    simp
  rw [pem_read, hdoc]
  rw [if_pos ⟨take_first_of_three _ _ _, drop_last_of_three _ _ _, len_three_ge _ _ _⟩]
  rw [mid_of_three]
  have hfil : (10 :: wrap64 (b64_encode der) ++ [10]).filter (fun c => c != 10)
      = (wrap64 (b64_encode der)).filter (fun c => c != 10) := by
    simp
  rw [hfil]
  rw [wrap64_filter (b64_encode der) (b64_encode_ne_newline der hder)]
  rw [b64_decode_encode der hder]

theorem read_write_key (label : List Nat) (key : Nat × Nat)
    (hbytes : ∀ b ∈ encode_sequence2 key.1 key.2, b < 256) :
    read_key label (write_key label key) = Except.ok key := by
  rw [read_key, write_key]
  rw [pem_read_write label _ hbytes]
  simp only []
  rw [decode_encode_sequence2]

theorem to_bytes_le_mem_lt : ∀ L v b, b ∈ to_bytes_le L v → b < 256 := by
  intro L
  induction L with
  | zero => intro v b hb; cases hb
  | succ L ih =>
    intro v b hb
    rw [to_bytes_le] at hb
    rcases List.mem_cons.mp hb with rfl | hb
    · exact Nat.mod_lt _ (by omega)
    · exact ih (v / 256) b hb

theorem min_be_bytes_mem_lt (v : Nat) : ∀ b ∈ min_be_bytes v, b < 256 := by
  intro b hb
  rw [min_be_bytes, List.mem_reverse] at hb
  exact to_bytes_le_mem_lt _ v b hb

theorem bit_length_zero : bit_length 0 = 0 := rfl

theorem byte_length_le (v k : Nat) (h : v < 2 ^ (8 * k)) : byte_length v ≤ k := by
  rw [byte_length]
  by_cases h0 : v = 0
  · subst h0
    rw [bit_length_zero]
    omega
  · obtain ⟨_, hcond⟩ := bit_length_spec v
    obtain ⟨h1, hge⟩ := hcond h0
    by_contra hc
    push_neg at hc
    have : 2 ^ (8 * k) ≤ 2 ^ (bit_length v - 1) :=
      Nat.pow_le_pow_right (by omega) (by omega)
    omega

theorem der_int_content_length (v : Nat) :
    (der_int_content v).length ≤ byte_length v + 1 := by
  rw [der_int_content]
  rcases hbs : min_be_bytes v with _ | ⟨c, cs⟩
  · simp only [List.length_singleton]
    omega
  · have hlen := min_be_bytes_length v
    rw [hbs] at hlen
    simp only [List.length_cons] at hlen
    by_cases h : 128 ≤ c
    · simp only [if_pos h, List.length_cons]
      omega
    · simp only [if_neg h, List.length_cons]
      omega

theorem der_int_content_mem_lt (v : Nat) : ∀ x ∈ der_int_content v, x < 256 := by
  intro x hx
  rw [der_int_content] at hx
  rcases hbs : min_be_bytes v with _ | ⟨c, cs⟩ <;> rw [hbs] at hx
  · simp only [List.mem_singleton] at hx
    omega
  · have hmem := min_be_bytes_mem_lt v
    rw [hbs] at hmem
    by_cases h : 128 ≤ c
    · simp only [if_pos h] at hx
      rcases List.mem_cons.mp hx with rfl | hx
      · omega
      · exact hmem x hx
    · simp only [if_neg h] at hx
      exact hmem x hx

theorem der_len_length (n : Nat) : (der_len n).length ≤ 1 + byte_length n := by
  rw [der_len]
  by_cases h : n ≤ 127
  · rw [if_pos h]
    simp
  · rw [if_neg h]
    rw [List.length_cons, min_be_bytes_length]
    omega

theorem der_len_mem_lt (n : Nat) (h127 : byte_length n ≤ 127) :
    ∀ x ∈ der_len n, x < 256 := by
  intro x hx
  rw [der_len] at hx
  by_cases h : n ≤ 127
  · rw [if_pos h] at hx
    simp only [List.mem_singleton] at hx
    omega
  · rw [if_neg h] at hx
    rcases List.mem_cons.mp hx with rfl | hx
    · rw [min_be_bytes_length]
      omega
    · exact min_be_bytes_mem_lt n x hx

theorem der_int_mem_lt (v : Nat) (h127 : byte_length (der_int_content v).length ≤ 127) :
    ∀ x ∈ der_int v, x < 256 := by
  intro x hx
  rw [der_int] at hx
  rcases List.mem_append.mp hx with hx | hx
  · rcases List.mem_cons.mp hx with rfl | hx
    · omega
    · exact der_len_mem_lt _ h127 x hx
  · exact der_int_content_mem_lt v x hx

theorem der_int_length_le (v : Nat) :
    (der_int v).length ≤ 2 + byte_length ((der_int_content v).length) + byte_length v + 1 := by
  rw [der_int]
  simp only [List.length_append, List.length_cons]
  have h1 := der_len_length (der_int_content v).length
  have h2 := der_int_content_length v
  omega

theorem encode_sequence2_mem_lt (a b : Nat)
    (ha : a < 2 ^ 8192) (hb : b < 2 ^ 8192) :
    ∀ x ∈ encode_sequence2 a b, x < 256 := by
  have h8192 : (8 : Nat) * 1024 = 8192 := by norm_num
  have hba : byte_length a ≤ 1024 := byte_length_le a 1024 (by rw [h8192]; exact ha)
  have hbb : byte_length b ≤ 1024 := byte_length_le b 1024 (by rw [h8192]; exact hb)
  have hca : (der_int_content a).length ≤ 1025 := by
    have := der_int_content_length a
    omega
  have hcb : (der_int_content b).length ≤ 1025 := by
    have := der_int_content_length b
    omega
  have h16 : (2 : Nat) ^ (8 * 2) = 65536 := by norm_num
  have hbca : byte_length (der_int_content a).length ≤ 2 :=
    byte_length_le _ 2 (by omega)
  have hbcb : byte_length (der_int_content b).length ≤ 2 :=
    byte_length_le _ 2 (by omega)
  have hla : (der_int a).length ≤ 1030 := by
    have := der_int_length_le a
    omega
  have hlb : (der_int b).length ≤ 1030 := by
    have := der_int_length_le b
    omega
  have hclen : (der_int a ++ der_int b).length ≤ 2060 := by
    rw [List.length_append]
    omega
  have hbclen : byte_length (der_int a ++ der_int b).length ≤ 2 :=
    byte_length_le _ 2 (by omega)
  intro x hx
  rw [encode_sequence2] at hx
  rcases List.mem_append.mp hx with hx | hx
  · rcases List.mem_cons.mp hx with rfl | hx
    · omega
    · exact der_len_mem_lt _ (by omega) x hx
  · rcases List.mem_append.mp hx with hx | hx
    · exact der_int_mem_lt a (by omega) x hx
    · exact der_int_mem_lt b (by omega) x hx

/-! ## Claim theorems -/

/-- C1 (amended): for every keypair built by `generate_keypair` whose two
accepted candidates are distinct genuine primes, decrypting the encryption
of any `m < n` with integer output returns `m`:
`_modular_pow(_modular_pow(m, e, n), d, n) = m`.  (As stated the claim
fails: the probabilistic tests can accept the same candidate twice or
accept a composite that fools every drawn witness, and then the inverse
property can fail — see the counterexample.) -/
theorem C1_theorem (size p q e : Nat) (pub priv : Nat × Nat)
    (h : generated_keypair_from size p q e pub priv)
    (hp : Nat.Prime p) (hq : Nat.Prime q) (hpq : p ≠ q)
    (m : Nat) (hm : m < pub.1) :
    modular_pow (modular_pow m pub.2 pub.1) priv.2 priv.1 = m :=
  generated_keypair_roundtrip size p q e pub priv h hp hq hpq m hm

/-- C1 (counterexample): two keypairs `generate_keypair` can return whose
decrypt does not invert encrypt.  First, `generate_keypair(6)` can draw the
same prime twice (`p = q = 5`, both draws passing both tests with every
witness 2), returning `((25, 19), (25, 3))`; for `m = 5 < 25` the
decryption of the encryption is `0`, not `5`.  Second,
`generate_keypair(24)` can draw `p = 5` and the composite
`q = 3277 = 29 * 113`, a base-2 strong pseudoprime that passes both tests
when every drawn witness is 2, returning `((16385, 19), (16385, 1207))`;
for `m = 3 < 16385` the decryption of the encryption is `11458`, not
`3`. -/
theorem C1_counterexample :
    (generated_keypair 6 (25, 19) (25, 3) ∧ 5 < 25 ∧
      modular_pow (modular_pow 5 19 25) 3 25 ≠ 5) ∧
    (generated_keypair 24 (16385, 19) (16385, 1207) ∧ ¬ Nat.Prime 3277 ∧
      3 < 16385 ∧
      modular_pow (modular_pow 3 19 16385) 1207 16385 ≠ 3) := by
  have hnp : ¬ Nat.Prime 3277 := by
    intro hp
    have h := hp.eq_one_or_self_of_dvd 29 ⟨113, by norm_num⟩
    omega
  refine ⟨⟨⟨5, 5, 19, ?_, ?_, ⟨by decide, Or.inl (by decide)⟩, by decide, by decide⟩,
      by decide, by decide⟩,
    ⟨⟨5, 3277, 19, ?_, ?_, ⟨by decide, Or.inl (by decide)⟩, by decide, by decide⟩,
      hnp, by decide, by decide⟩⟩
  · exact ⟨by decide, by decide,
      ⟨List.replicate 40 2, by decide, by decide, by decide⟩,
      ⟨List.replicate 40 2, by decide, by decide, by decide⟩⟩
  · exact ⟨by decide, by decide,
      ⟨List.replicate 40 2, by decide, by decide, by decide⟩,
      ⟨List.replicate 40 2, by decide, by decide, by decide⟩⟩
  · exact ⟨by decide, by decide,
      ⟨List.replicate 40 2, by decide, by decide, by decide⟩,
      ⟨List.replicate 40 2, by decide, by decide, by decide⟩⟩
  · exact ⟨by decide, by decide,
      ⟨List.replicate 40 2, by decide, by decide, by decide⟩,
      ⟨List.replicate 40 2, by decide, by decide, by decide⟩⟩

/-- C1 (witness): the keypair `((35, 19), (35, 7))` from the distinct
primes 5 and 7 (both accepted with every witness 2) decrypts the
encryption of 2 back to 2. -/
theorem C1_witness :
    (generated_keypair_from 6 5 7 19 (35, 19) (35, 7) ∧ Nat.Prime 5 ∧
      Nat.Prime 7 ∧ 5 ≠ 7 ∧ 2 < 35) ∧
      modular_pow (modular_pow 2 19 35) 7 35 = 2 := by
  have hk : generated_keypair_from 6 5 7 19 (35, 19) (35, 7) :=
    ⟨⟨by decide, by decide,
        ⟨List.replicate 40 2, by decide, by decide, by decide⟩,
        ⟨List.replicate 40 2, by decide, by decide, by decide⟩⟩,
      ⟨by decide, by decide,
        ⟨List.replicate 40 2, by decide, by decide, by decide⟩,
        ⟨List.replicate 40 2, by decide, by decide, by decide⟩⟩,
      ⟨by decide, Or.inl (by decide)⟩, by decide, by decide⟩
  exact ⟨⟨hk, by norm_num, by norm_num, by decide, by decide⟩,
    C1_theorem 6 5 7 19 (35, 19) (35, 7) hk (by norm_num) (by norm_num)
      (by decide) 2 (by decide)⟩

/-- C2: `_modular_pow(base, exponent, modulus)` agrees with the naive
repeated-multiplication reference modulo `modulus` for every
`modulus ≥ 1`; for `modulus = 1` it returns 0; and
`_modular_pow(4, 13, 497) = 445`. -/
theorem C2_theorem :
    (∀ base exponent modulus : Nat, 1 ≤ modulus →
      modular_pow base exponent modulus = naive_pow base exponent % modulus) ∧
    (∀ base exponent : Nat, modular_pow base exponent 1 = 0) ∧
    modular_pow 4 13 497 = 445 := by
  refine ⟨?_, ?_, by decide⟩
  · intro b e m hm
    rw [modular_pow_correct b e m hm, naive_pow_eq_pow]
  · intro b e
    rw [modular_pow]
    simp

/-- C2 (witness): the agreement instantiated at `(4, 13, 497)`. -/
theorem C2_witness :
    1 ≤ 497 ∧ modular_pow 4 13 497 = naive_pow 4 13 % 497 :=
  ⟨by decide, C2_theorem.1 4 13 497 (by decide)⟩

/-- C3: the initial public exponent computed by `generate_keypair` is
`(2 XOR 16) + 1 = 19`, not the conventional 65537 (`^` is XOR in Python,
not exponentiation); the selection loop does guarantee
`gcd(e, lambda) = 1` for the final exponent. -/
theorem C3_theorem :
    initial_public_exponent = 19 ∧ initial_public_exponent ≠ 65537 ∧
      (∀ lam e : Nat, e_selected lam e → gcd_euclidean e lam = 1) :=
  ⟨by decide, by decide, fun _ _ h => h.1⟩

/-- C3 (witness): the exponent-selection property at `lam = 4`, `e = 19`. -/
theorem C3_witness :
    e_selected 4 19 ∧ gcd_euclidean 19 4 = 1 :=
  ⟨⟨by decide, Or.inl (by decide)⟩,
    C3_theorem.2.2 4 19 ⟨by decide, Or.inl (by decide)⟩⟩

/-- C4 (amended): `_miller_rabin_prime` returns `True` on every prime
`5 ≤ p < 10^6` for `witnessCount = 40` and every valid witness draw; it
returns `False` on every even composite, and on every odd composite
`c ≥ 5` whenever some drawn witness is a Fermat witness for `c`
(`a^(c-1) mod c ≠ 1`).  (As stated the claim fails: for the primes 2 and 3
the function raises instead of returning `True`, and a composite can
return `True` when every drawn witness is a strong liar — see the
counterexample.) -/
theorem C4_theorem :
    (∀ (p : Nat) (ws : List Nat), Nat.Prime p → 5 ≤ p → p < 10 ^ 6 →
      ws.length = 40 → (∀ a ∈ ws, 2 ≤ a ∧ a ≤ p - 2) →
      miller_rabin p ws = some true) ∧
    (∀ (c : Nat) (ws : List Nat), c ≠ 2 → c % 2 = 0 →
      miller_rabin c ws = some false) ∧
    (∀ (c : Nat) (ws : List Nat), 5 ≤ c → c % 2 = 1 →
      (∃ a ∈ ws, a ^ (c - 1) % c ≠ 1) → miller_rabin c ws = some false) := by
  refine ⟨?_, ?_, ?_⟩
  · intro p ws hp h5 _ _ hval
    exact miller_rabin_prime_true p hp h5 ws hval
  · intro c ws h2 hev
    rw [miller_rabin, if_pos ⟨h2, hev⟩]
  · intro c ws h5 hodd hdet
    rw [miller_rabin]
    rw [if_neg (by omega)]
    rw [if_neg (by omega)]
    obtain ⟨hsd, _⟩ := split2_spec (c - 1) (by omega)
    exact mr_witness_loop_false c _ _ (by omega) hsd ws hdet

/-- C4 (counterexample): the prime 3 (`< 10^6`) makes
`_miller_rabin_prime` raise (`none`) instead of returning `True` for any
positive witness count; and the composite `2047 = 23 * 89` (`< 10^6`)
returns `True` when all 40 drawn witnesses are the strong liar 2. -/
theorem C4_counterexample :
    Nat.Prime 3 ∧ miller_rabin 3 (List.replicate 40 2) = none ∧
      ¬ Nat.Prime 2047 ∧
      (∀ w ∈ List.replicate 40 2, 2 ≤ w ∧ w ≤ 2047 - 2) ∧
      miller_rabin 2047 (List.replicate 40 2) = some true := by
  refine ⟨by norm_num, by decide, ?_, by decide, by decide⟩
  intro hp
  have h := hp.eq_one_or_self_of_dvd 23 ⟨89, by norm_num⟩
  omega

/-- C4 (witness): the prime 5 with 40 valid witnesses returns `True`. -/
theorem C4_witness :
    (Nat.Prime 5 ∧ 5 ≤ 5 ∧ 5 < 10 ^ 6 ∧ (List.replicate 40 2).length = 40 ∧
      (∀ a ∈ List.replicate 40 2, 2 ≤ a ∧ a ≤ 5 - 2)) ∧
      miller_rabin 5 (List.replicate 40 2) = some true :=
  ⟨⟨by norm_num, by decide, by decide, by decide, by decide⟩,
    C4_theorem.1 5 (List.replicate 40 2) (by norm_num) (by decide) (by decide)
      (by decide) (by decide)⟩

/-- C5: for coprime `a, n` with `n > 0`, `_mod_mult_inverse(a, n)` is in
`[0, n)`, satisfies `a * result ≡ 1 (mod n)`, and is the unique such
value; in particular `_mod_mult_inverse(3, 11) = 4`. -/
theorem C5_theorem :
    (∀ a n : Int, 0 < n → Int.gcd a n = 1 →
      0 ≤ mod_mult_inverse a n ∧ mod_mult_inverse a n < n ∧
        a * mod_mult_inverse a n ≡ 1 [ZMOD n] ∧
        (∀ r : Int, 0 ≤ r → r < n → a * r ≡ 1 [ZMOD n] →
          r = mod_mult_inverse a n)) ∧
    mod_mult_inverse 3 11 = 4 := by
  refine ⟨?_, by decide⟩
  intro a n hn hcop
  obtain ⟨h1, h2, h3⟩ := mod_mult_inverse_correct a n hn hcop
  exact ⟨h1, h2, h3, fun r hr hrn har =>
    mod_inverse_unique a n r (mod_mult_inverse a n) hn hr hrn h1 h2 har h3⟩

/-- C5 (witness): the inverse property instantiated at `(3, 11)`. -/
theorem C5_witness :
    ((0 : Int) < 11 ∧ Int.gcd 3 11 = 1) ∧
      (0 ≤ mod_mult_inverse 3 11 ∧ mod_mult_inverse 3 11 < 11 ∧
        (3 : Int) * mod_mult_inverse 3 11 ≡ 1 [ZMOD 11] ∧
        (∀ r : Int, 0 ≤ r → r < 11 → (3 : Int) * r ≡ 1 [ZMOD 11] →
          r = mod_mult_inverse 3 11)) :=
  ⟨⟨by decide, by decide⟩, C5_theorem.1 3 11 (by decide) (by decide)⟩

/-- C6: `encrypt` performs no range check against the modulus — it
returns `_modular_pow(m, e, n)` for every integer plaintext, and in
particular succeeds (with result 0) on `m = 25 ≥ n = 25` instead of
raising the RangeError the spec requires. -/
theorem C6_theorem :
    (∀ n e m : Nat, encrypt ⟨some (n, e), none⟩ (Plaintext.num m)
        = Except.ok (modular_pow m e n)) ∧
    encrypt ⟨some (25, 19), none⟩ (Plaintext.num 25) = Except.ok 0 :=
  ⟨fun _ _ _ => rfl, rfl⟩

/-- C7: `encrypt` fails with the missing-key error whenever no public key
is present, `decrypt` likewise for the private key, and both fail on a
fresh `SimpleRSA()` instance. -/
theorem C7_theorem :
    (∀ (st : RSAState) (pt : Plaintext), st.public_key = none →
        encrypt st pt = Except.error RSAError.missingKey) ∧
    (∀ (st : RSAState) (c : Nat) (asText : Bool), st.private_key = none →
        decrypt st c asText = Except.error RSAError.missingKey) ∧
    (∀ pt, encrypt freshRSA pt = Except.error RSAError.missingKey) ∧
    (∀ (c : Nat) (asText : Bool),
        decrypt freshRSA c asText = Except.error RSAError.missingKey) := by
  refine ⟨?_, ?_, fun _ => rfl, fun _ _ => rfl⟩
  · intro st pt h
    rcases st with ⟨pk, sk⟩
    cases pk with
    | none => rfl
    | some k => simp at h
  · intro st c t h
    rcases st with ⟨pk, sk⟩
    cases sk with
    | none => rfl
    | some k => simp at h

/-- C7 (witness): both failures at a concrete fresh instance. -/
theorem C7_witness :
    (freshRSA.public_key = none ∧ freshRSA.private_key = none) ∧
      encrypt freshRSA (Plaintext.num 7) = Except.error RSAError.missingKey ∧
      decrypt freshRSA 7 true = Except.error RSAError.missingKey :=
  ⟨⟨rfl, rfl⟩, C7_theorem.1 freshRSA (Plaintext.num 7) rfl,
    C7_theorem.2.1 freshRSA 7 true rfl⟩

/-- C8: serializing a key pair `(n, e)` through the modelled DER + PEM
pipeline and deserializing from the produced text reconstructs exactly the
original pair, for every label and all key integers of up to 8192 bits
(beyond any generated key of interest; a bound is needed because DER
definite-form length octets cannot describe unboundedly large
contents). -/
theorem C8_theorem (label : List Nat) (n e : Nat)
    (hn : n < 2 ^ 8192) (he : e < 2 ^ 8192) :
    read_key label (write_key label (n, e)) = Except.ok (n, e) :=
  read_write_key label (n, e) (encode_sequence2_mem_lt n e hn he)

/-- C8 (witness): the round trip at a 512-bit modulus with the public
label and exponent 65537. -/
theorem C8_witness :
    (2 ^ 511 + 9 < 2 ^ 8192 ∧ 65537 < 2 ^ 8192) ∧
      read_key [80, 85, 66, 76, 73, 67]
          (write_key [80, 85, 66, 76, 73, 67] (2 ^ 511 + 9, 65537))
        = Except.ok (2 ^ 511 + 9, 65537) := by
  have h9 : (9 : Nat) < 2 ^ 511 :=
    lt_of_lt_of_le (by norm_num : (9 : Nat) < 2 ^ 4)
      (Nat.pow_le_pow_right (by omega) (by omega))
  have h1 : (2 : Nat) ^ 511 + 9 < 2 ^ 512 := by
    have hts : (2 : Nat) ^ 512 = 2 ^ 511 + 2 ^ 511 := by
      rw [pow_succ]
      omega
    omega
  have h2 : (2 : Nat) ^ 512 ≤ 2 ^ 8192 := Nat.pow_le_pow_right (by omega) (by omega)
  have hn : (2 : Nat) ^ 511 + 9 < 2 ^ 8192 := lt_of_lt_of_le h1 h2
  have h3 : (65537 : Nat) < 2 ^ 8192 :=
    lt_of_lt_of_le (by norm_num : (65537 : Nat) < 2 ^ 17)
      (Nat.pow_le_pow_right (by omega) (by omega))
  exact ⟨⟨hn, h3⟩,
    C8_theorem [80, 85, 66, 76, 73, 67] (2 ^ 511 + 9) 65537 hn h3⟩

/-- C9 (amended): `encrypt` frames a textual plaintext with
`int.from_bytes(·, sys.byteorder)` — the platform byte order, little
endian on the modelled platform, not big endian — and `decrypt` with text
output re-encodes the decrypted integer as the minimal
`ceil(bitLength/8)`-byte sequence in the same order before decoding; the
two framings are mutually inverse on encodings without a trailing zero
byte. -/
theorem C9_theorem :
    sys_byteorder = ByteOrder.little ∧
    (∀ (n e : Nat) (bs : List Nat),
      encrypt ⟨some (n, e), none⟩ (Plaintext.text bs)
        = Except.ok (modular_pow (from_bytes sys_byteorder bs) e n)) ∧
    (∀ n d c : Nat, decrypt ⟨none, some (n, d)⟩ c true
        = Except.ok (Sum.inr (int_to_text_bytes (modular_pow c d n)))) ∧
    (∀ (bs : List Nat) (hne : bs ≠ []), bs.getLast hne ≠ 0 →
      (∀ b ∈ bs, b < 256) →
      int_to_text_bytes (from_bytes sys_byteorder bs) = bs) := by
  refine ⟨rfl, fun _ _ _ => rfl, fun _ _ _ => rfl, ?_⟩
  intro bs hne hlast hb
  exact int_to_text_bytes_from_bytes bs hne hlast hb

/-- C9 (counterexample): the text "ab" encodes as bytes `[97, 98]`, which
`encrypt` frames as `25185` (little-endian, `98*256 + 97`), not as the
big-endian value `24930 = 97*256 + 98` the claim states. -/
theorem C9_counterexample :
    encrypt ⟨some (16777216, 1), none⟩ (Plaintext.text [97, 98])
        = Except.ok 25185 ∧
      from_bytes ByteOrder.big [97, 98] = 24930 ∧ (25185 : Nat) ≠ 24930 :=
  ⟨rfl, by decide, by decide⟩

/-- C9 (witness): the framing round trip at the bytes of "ab". -/
theorem C9_witness :
    ([97, 98] : List Nat) ≠ [] ∧
      int_to_text_bytes (from_bytes sys_byteorder [97, 98]) = [97, 98] :=
  ⟨by decide, C9_theorem.2.2.2 [97, 98] (by decide) (by decide) (by decide)⟩

/-- C10: with any positive witness count, `_fermat_prime(3, ·)` and
`_miller_rabin_prime(3, ·)` raise (`none`) because the witness range
`[2, 1]` is empty, and `_miller_rabin_prime(2, ·)` raises for the same
reason. -/
theorem C10_theorem :
    ∀ ws : List Nat, 1 ≤ ws.length →
      fermat_prime 3 ws = none ∧ miller_rabin 3 ws = none ∧
        miller_rabin 2 ws = none := by
  intro ws hws
  rcases ws with _ | ⟨w, ws'⟩
  · simp at hws
  · refine ⟨?_, ?_, ?_⟩
    · rw [fermat_prime, if_neg (by decide)]
      rw [fermat_loop, if_pos (by decide : (3 : Nat) ≤ 3)]
    · rw [miller_rabin]
      rw [if_neg (by decide)]
      rw [if_neg (by decide)]
      rw [mr_witness_loop, if_pos (by decide : (3 : Nat) ≤ 3)]
    · rw [miller_rabin]
      rw [if_neg (by decide)]
      rw [if_neg (by decide)]
      rw [mr_witness_loop, if_pos (by decide : (2 : Nat) ≤ 3)]

/-- C10 (witness): the three raises at a single drawn witness. -/
theorem C10_witness :
    1 ≤ ([2] : List Nat).length ∧ fermat_prime 3 [2] = none ∧
      miller_rabin 3 [2] = none ∧ miller_rabin 2 [2] = none :=
  ⟨by decide, (C10_theorem [2] (by decide)).1, (C10_theorem [2] (by decide)).2.1,
    (C10_theorem [2] (by decide)).2.2⟩
